import Mathlib

/-!
# Verification development for the chess rules engine (src/lib/chess-engine.ts)

This file gives a shallow embedding, in Lean 4, of the TypeScript chess
engine `src/lib/chess-engine.ts`, and settles the frozen claims about it.

Modelling conventions:

* JS arrays of squares become `List (List (Option Piece))`; reading
  `board[r][c]` becomes `getSq`, which yields `none` out of bounds (the
  engine always bounds-checks before reading, so in-code reads agree).
* JS numbers used as coordinates become `Int` (they can be negative in
  intermediate expressions such as `r + dir`, and `inBounds` tests them).
* Functions that can hit a JS runtime error (`undefined` dereference,
  `parseInt` producing `NaN`) are modelled with `Option`: `none` stands
  for "the original program does not return a normal `GameState` here"
  (either a thrown `TypeError` or an ill-typed value such as a `NaN`
  clock or a piece whose `type` is not one of the six letters).  Each
  such spot is marked with a comment.
* Strings are manipulated through their character lists; the splitting
  behaviour of JS `String.split` on a single-character separator is
  reproduced by `splitSep` below.
-/

namespace Chess

/-- Piece colour, `"w" | "b"` in the source. -/
inductive PieceColor
  | w
  | b
deriving DecidableEq

/-- Piece kind, `"p" | "n" | "b" | "r" | "q" | "k"` in the source. -/
inductive PieceType
  | p
  | n
  | b
  | r
  | q
  | k
deriving DecidableEq

/-- `Piece = { color, type }`. -/
structure Piece where
  color : PieceColor
  type : PieceType
deriving DecidableEq

/-- `Square = Piece | null`. -/
abbrev Square := Option Piece

/-- `Board = Square[][]`. -/
abbrev Board := List (List Square)

/-- `CastlingRights` — four independent booleans. -/
structure CastlingRights where
  K : Bool
  Q : Bool
  k : Bool
  q : Bool
deriving DecidableEq

/-- `GameState` as in the source.  The `enPassant` field is a coordinate
string such as `"e3"` or `null`; clocks are natural numbers (the JS
numbers are non-negative integers on every state the engine produces). -/
structure GameState where
  board : Board
  turn : PieceColor
  castling : CastlingRights
  enPassant : Option String
  halfmoveClock : Nat
  fullmoveNumber : Nat
deriving DecidableEq

/-- `const FILES = "abcdefgh"` (as a character list). -/
def FILES : List Char := ['a', 'b', 'c', 'd', 'e', 'f', 'g', 'h']

/-- `const RANKS = "87654321"` (as a character list). -/
def RANKS : List Char := ['8', '7', '6', '5', '4', '3', '2', '1']

/-- Read `board[r][c]`; `none` when out of bounds (the engine guards all
reads with `inBounds`, so this default is never observed in-code). -/
def getSq (board : Board) (r c : Int) : Square :=
  if 0 ≤ r ∧ 0 ≤ c then ((board.getD r.toNat []).getD c.toNat none) else none

/-- Write `board[r][c] = sq` (no-op out of bounds, like the guarded uses). -/
def setSq (board : Board) (r c : Int) (sq : Square) : Board :=
  if 0 ≤ r ∧ 0 ≤ c then
    board.set r.toNat ((board.getD r.toNat []).set c.toNat sq)
  else board

/-- JS `String.prototype.indexOf` for one character: first index or `-1`. -/
def indexOfChar (l : List Char) (c : Char) : Int :=
  match l.findIdx? (fun x => x = c) with
  | some i => (i : Int)
  | none => -1

/-- JS `s[i]` for a string: the character, or `'?'` standing in for
`undefined` (`'?'` occurs in neither `FILES` nor `RANKS`, so a later
`indexOf` returns `-1` exactly as it does on `undefined`). -/
def charAt (s : String) (i : Nat) : Char :=
  s.toList.getD i '?'

/-- `sqToRC(sq) = [RANKS.indexOf(sq[1]), FILES.indexOf(sq[0])]`. -/
def sqToRC (sq : String) : Int × Int :=
  (indexOfChar RANKS (charAt sq 1), indexOfChar FILES (charAt sq 0))

/-- `rcToSq(r, c) = FILES[c] + RANKS[r]` (empty string component when an
index is out of range, where JS would produce `undefined` text). -/
def rcToSq (r c : Int) : String :=
  (if 0 ≤ c ∧ c < 8 then String.singleton (FILES.getD c.toNat '?') else "")
    ++ (if 0 ≤ r ∧ r < 8 then String.singleton (RANKS.getD r.toNat '?') else "")

/-- `inBounds(r, c)`. -/
def inBounds (r c : Int) : Bool :=
  0 ≤ r && r < 8 && 0 ≤ c && c < 8

/-- The eight knight offsets, in source order. -/
def knightMoves : List (Int × Int) :=
  [(-2, -1), (-2, 1), (-1, -2), (-1, 2), (1, -2), (1, 2), (2, -1), (2, 1)]

/-- The `-1, 0, 1` loop range used for king-adjacency scans. -/
def unitRange : List Int := [-1, 0, 1]

/-- One sliding direction paired with the piece kinds that attack along it. -/
structure SlideDir where
  dr : Int
  dc : Int
  types : List PieceType

/-- The eight sliding directions of `isAttackedBy`, in source order. -/
def slideDirs : List SlideDir :=
  [⟨-1, 0, [.r, .q]⟩, ⟨1, 0, [.r, .q]⟩, ⟨0, -1, [.r, .q]⟩, ⟨0, 1, [.r, .q]⟩,
   ⟨-1, -1, [.b, .q]⟩, ⟨-1, 1, [.b, .q]⟩, ⟨1, -1, [.b, .q]⟩, ⟨1, 1, [.b, .q]⟩]

/-- The ray walk of `isAttackedBy`'s sliding section: step along `(dr, dc)`
until out of bounds or a piece is met.  The JS `while` loop needs at most
nine iterations from any start square, so fuel `16` is never exhausted. -/
def rayHits (board : Board) (by_ : PieceColor) (types : List PieceType) :
    Nat → Int → Int → Int → Int → Bool
  | 0, _, _, _, _ => false
  | fuel + 1, nr, nc, dr, dc =>
    if inBounds nr nc then
      match getSq board nr nc with
      | some piece => piece.color = by_ && types.contains piece.type
      | none => rayHits board by_ types fuel (nr + dr) (nc + dc) dr dc
    else false

/-- `isAttackedBy(board, r, c, by)` — the Attack Oracle. -/
def isAttackedBy (board : Board) (r c : Int) (by_ : PieceColor) : Bool :=
  -- Pawn attacks
  (let pawnDir : Int := if by_ = .w then 1 else -1
   [(-1 : Int), 1].any fun dc =>
     let pr := r + pawnDir
     let pc := c + dc
     inBounds pr pc &&
       match getSq board pr pc with
       | some piece => piece.color = by_ && piece.type = .p
       | none => false)
  ||
  -- Knight attacks
  (knightMoves.any fun d =>
     let nr := r + d.1
     let nc := c + d.2
     inBounds nr nc &&
       match getSq board nr nc with
       | some piece => piece.color = by_ && piece.type = .n
       | none => false)
  ||
  -- King attacks
  (unitRange.any fun dr =>
     unitRange.any fun dc =>
       if dr = 0 && dc = 0 then false
       else
         let nr := r + dr
         let nc := c + dc
         inBounds nr nc &&
           match getSq board nr nc with
           | some piece => piece.color = by_ && piece.type = .k
           | none => false)
  ||
  -- Sliding pieces (bishop/rook/queen)
  (slideDirs.any fun d =>
     rayHits board by_ d.types 16 (r + d.dr) (c + d.dc) d.dr d.dc)

/-- `findKing(board, color)`: first king of the colour in row-major scan,
`(-1, -1)` when absent. -/
def findKing (board : Board) (color : PieceColor) : Int × Int :=
  match (List.range 8).findSome? (fun r =>
    ((List.range 8).find? fun c =>
      match getSq board r c with
      | some piece => piece.color = color && piece.type = .k
      | none => false).map fun c => ((r : Int), (c : Int))) with
  | some rc => rc
  | none => (-1, -1)

/-- `isInCheck(board, color)`. -/
def isInCheck (board : Board) (color : PieceColor) : Bool :=
  let kp := findKing board color
  isAttackedBy board kp.1 kp.2 (if color = .w then .b else .w)

/-- `RawMove` — `{fromR, fromC, toR, toC, promotion?}`. -/
structure RawMove where
  fromR : Int
  fromC : Int
  toR : Int
  toC : Int
  promotion : Option PieceType := none
deriving DecidableEq

/-- The promotion fan `["q", "r", "b", "n"]`, in source order. -/
def promoKinds : List PieceType := [.q, .r, .b, .n]

/-- Pawn branch of `generatePseudoLegalMoves` for the pawn on `(r, c)`. -/
def pawnMoves (board : Board) (turn : PieceColor) (enPassant : Option String)
    (r c : Int) : List RawMove :=
  let dir : Int := if turn = .w then -1 else 1
  let startRank : Int := if turn = .w then 6 else 1
  let promoRank : Int := if turn = .w then 0 else 7
  -- Forward (and double push)
  (if inBounds (r + dir) c && (getSq board (r + dir) c).isNone then
    (if r + dir = promoRank then
      promoKinds.map fun pk => RawMove.mk r c (r + dir) c (some pk)
    else [RawMove.mk r c (r + dir) c none])
    ++ (if r = startRank && (getSq board (r + 2 * dir) c).isNone then
        [RawMove.mk r c (r + 2 * dir) c none]
      else [])
  else [])
  ++
  -- Captures (including en passant)
  ([(-1 : Int), 1].flatMap fun dc =>
    let nc := c + dc
    if !inBounds (r + dir) nc then []
    else
      let target := getSq board (r + dir) nc
      let epSq : Option (Int × Int) := enPassant.map sqToRC
      match target with
      | some t =>
        if t.color ≠ turn then
          if r + dir = promoRank then
            promoKinds.map fun pk => RawMove.mk r c (r + dir) nc (some pk)
          else [RawMove.mk r c (r + dir) nc none]
        else []
      | none =>
        match epSq with
        | some ep =>
          if ep.1 = r + dir && ep.2 = nc then [RawMove.mk r c (r + dir) nc none]
          else []
        | none => [])

/-- Knight branch for the knight on `(r, c)`. -/
def knightBranch (board : Board) (turn : PieceColor) (r c : Int) : List RawMove :=
  knightMoves.flatMap fun d =>
    let nr := r + d.1
    let nc := c + d.2
    if inBounds nr nc then
      match getSq board nr nc with
      | some t => if t.color ≠ turn then [RawMove.mk r c nr nc none] else []
      | none => [RawMove.mk r c nr nc none]
    else []

/-- Ray walk of the sliding branch: collect empty squares, stop on (and
include) the first enemy square, stop before a friendly square. -/
def slideRay (board : Board) (turn : PieceColor) (r c : Int) :
    Nat → Int → Int → Int → Int → List RawMove
  | 0, _, _, _, _ => []
  | fuel + 1, nr, nc, dr, dc =>
    if inBounds nr nc then
      match getSq board nr nc with
      | some t => if t.color ≠ turn then [RawMove.mk r c nr nc none] else []
      | none =>
        RawMove.mk r c nr nc none :: slideRay board turn r c fuel (nr + dr) (nc + dc) dr dc
    else []

/-- Direction sets of the sliding branch, per piece kind. -/
def slideDirsOf (t : PieceType) : List (Int × Int) :=
  if t = .b then [(-1, -1), (-1, 1), (1, -1), (1, 1)]
  else if t = .r then [(-1, 0), (1, 0), (0, -1), (0, 1)]
  else [(-1, -1), (-1, 1), (1, -1), (1, 1), (-1, 0), (1, 0), (0, -1), (0, 1)]

/-- Sliding branch (bishop/rook/queen) for the piece on `(r, c)`. -/
def slideBranch (board : Board) (turn : PieceColor) (t : PieceType) (r c : Int) :
    List RawMove :=
  (slideDirsOf t).flatMap fun d =>
    slideRay board turn r c 16 (r + d.1) (c + d.2) d.1 d.2

/-- The eight-adjacent-squares part of the king branch. -/
def kingSteps (board : Board) (turn : PieceColor) (r c : Int) : List RawMove :=
  unitRange.flatMap fun dr =>
    unitRange.flatMap fun dc =>
      if dr = 0 && dc = 0 then []
      else
        let nr := r + dr
        let nc := c + dc
        if inBounds nr nc then
          match getSq board nr nc with
          | some t => if t.color ≠ turn then [RawMove.mk r c nr nc none] else []
          | none => [RawMove.mk r c nr nc none]
        else []

/-- The castling emissions of the king branch, with their right/occupancy/
rook/attack conditions exactly as in the source (kingside first). -/
def kingCastles (board : Board) (turn : PieceColor)
    (castling : CastlingRights) (r c : Int) : List RawMove :=
  (let enemy : PieceColor := if turn = .w then .b else .w
   if turn = .w then
     (if castling.K && (getSq board 7 5).isNone && (getSq board 7 6).isNone
         && (match getSq board 7 7 with
             | some p => p.type = .r && p.color = .w
             | none => false) then
       if !isAttackedBy board 7 4 enemy && !isAttackedBy board 7 5 enemy
           && !isAttackedBy board 7 6 enemy then
         [RawMove.mk r c 7 6 none]
       else []
     else [])
     ++
     (if castling.Q && (getSq board 7 3).isNone && (getSq board 7 2).isNone
         && (getSq board 7 1).isNone
         && (match getSq board 7 0 with
             | some p => p.type = .r && p.color = .w
             | none => false) then
       if !isAttackedBy board 7 4 enemy && !isAttackedBy board 7 3 enemy
           && !isAttackedBy board 7 2 enemy then
         [RawMove.mk r c 7 2 none]
       else []
     else [])
   else
     (if castling.k && (getSq board 0 5).isNone && (getSq board 0 6).isNone
         && (match getSq board 0 7 with
             | some p => p.type = .r && p.color = .b
             | none => false) then
       if !isAttackedBy board 0 4 enemy && !isAttackedBy board 0 5 enemy
           && !isAttackedBy board 0 6 enemy then
         [RawMove.mk r c 0 6 none]
       else []
     else [])
     ++
     (if castling.q && (getSq board 0 3).isNone && (getSq board 0 2).isNone
         && (getSq board 0 1).isNone
         && (match getSq board 0 0 with
             | some p => p.type = .r && p.color = .b
             | none => false) then
       if !isAttackedBy board 0 4 enemy && !isAttackedBy board 0 3 enemy
           && !isAttackedBy board 0 2 enemy then
         [RawMove.mk r c 0 2 none]
       else []
     else []))

/-- King branch for the king on `(r, c)`: the eight adjacent squares, then
the castling emissions. -/
def kingBranch (board : Board) (turn : PieceColor) (castling : CastlingRights)
    (r c : Int) : List RawMove :=
  kingSteps board turn r c ++ kingCastles board turn castling r c

/-- Moves pushed for the square `(r, c)` inside the generator's scan. -/
def movesFrom (state : GameState) (r c : Int) : List RawMove :=
  match getSq state.board r c with
  | none => []
  | some piece =>
    if piece.color ≠ state.turn then []
    else
      match piece.type with
      | .p => pawnMoves state.board state.turn state.enPassant r c
      | .n => knightBranch state.board state.turn r c
      | .b => slideBranch state.board state.turn .b r c
      | .r => slideBranch state.board state.turn .r r c
      | .q => slideBranch state.board state.turn .q r c
      | .k => kingBranch state.board state.turn state.castling r c

/-- `generatePseudoLegalMoves(state)`: row-major scan over the 64 squares. -/
def generatePseudoLegalMoves (state : GameState) : List RawMove :=
  (List.range 8).flatMap fun r =>
    (List.range 8).flatMap fun c =>
      movesFrom state (r : Int) (c : Int)

/-- Castling-rights block 1 of `applyRawMove`: any king move clears both
of that side's rights. -/
def clearKingRights (piece : Piece) (cr : CastlingRights) : CastlingRights :=
  if piece.type = .k then
    if piece.color = .w then { cr with K := false, Q := false }
    else { cr with k := false, q := false }
  else cr

/-- Castling-rights block 2 of `applyRawMove`: a rook moving from a home
square clears that right. -/
def clearRookRights (piece : Piece) (move : RawMove) (cr : CastlingRights) :
    CastlingRights :=
  if piece.type = .r then
    let c1 := if move.fromR = 7 && move.fromC = 7 then { cr with K := false } else cr
    let c2 := if move.fromR = 7 && move.fromC = 0 then { c1 with Q := false } else c1
    let c3 := if move.fromR = 0 && move.fromC = 7 then { c2 with k := false } else c2
    if move.fromR = 0 && move.fromC = 0 then { c3 with q := false } else c3
  else cr

/-- Castling-rights block 3 of `applyRawMove`: capturing a rook on a home
square clears that right. -/
def clearCapturedRookRights (captured : Square) (move : RawMove)
    (cr : CastlingRights) : CastlingRights :=
  match captured with
  | some cp =>
    if cp.type = .r then
      let c1 := if move.toR = 7 && move.toC = 7 then { cr with K := false } else cr
      let c2 := if move.toR = 7 && move.toC = 0 then { c1 with Q := false } else c1
      let c3 := if move.toR = 0 && move.toC = 7 then { c2 with k := false } else c2
      if move.toR = 0 && move.toC = 0 then { c3 with q := false } else c3
    else cr
  | none => cr

/-- `applyRawMove(state, move)` — the State Transition.  The source reads
the moving piece with a non-null assertion; when the origin square is in
fact empty we return the state unchanged (the original would throw on
`piece.type`; no caller applies a move from an empty square). -/
def applyRawMove (state : GameState) (move : RawMove) : GameState :=
  match getSq state.board move.fromR move.fromC with
  | none => state
  | some piece =>
    let captured := getSq state.board move.toR move.toC
    -- En passant capture
    let board1 :=
      match state.enPassant with
      | some ep =>
        if piece.type = .p then
          let epRC := sqToRC ep
          if move.toR = epRC.1 && move.toC = epRC.2 then
            setSq state.board move.fromR epRC.2 none
          else state.board
        else state.board
      | none => state.board
    -- Move piece
    let board2 := setSq board1 move.toR move.toC
      (some (match move.promotion with
             | some pk => ⟨piece.color, pk⟩
             | none => piece))
    let board3 := setSq board2 move.fromR move.fromC none
    -- Castling rook move
    let board4 :=
      if piece.type = .k then
        if move.toC - move.fromC = 2 then
          setSq (setSq board3 move.fromR 5 (getSq board3 move.fromR 7)) move.fromR 7 none
        else if move.fromC - move.toC = 2 then
          setSq (setSq board3 move.fromR 3 (getSq board3 move.fromR 0)) move.fromR 0 none
        else board3
      else board3
    -- Update castling rights (the three blocks, in source order)
    let cast3 := clearCapturedRookRights captured move
      (clearRookRights piece move (clearKingRights piece state.castling))
    -- En passant square, clocks, turn
    { board := board4
      turn := if state.turn = .w then .b else .w
      castling := cast3
      enPassant :=
        if piece.type = .p && (move.toR - move.fromR).natAbs = 2 then
          some (rcToSq ((move.fromR + move.toR) / 2) move.fromC)
        else none
      halfmoveClock :=
        if piece.type = .p || captured.isSome then 0 else state.halfmoveClock + 1
      fullmoveNumber :=
        if state.turn = .b then state.fullmoveNumber + 1 else state.fullmoveNumber }

/-- The legality filter of `getLegalMoves`: keep a pseudo-move exactly when
the mover's own king is not attacked afterwards. -/
def legalRawMoves (state : GameState) : List RawMove :=
  (generatePseudoLegalMoves state).filter fun move =>
    !isInCheck (applyRawMove state move).board state.turn

/-- `LegalMove` as returned by `getLegalMoves`, minus the `san` field: no
claim below depends on the SAN text, and its computation re-enters
`getLegalMoves` (see the non-termination development further down), so the
records are modelled without it.  The source's `from` and `to` fields are
called `fromSq` and `toSq` (`from` and `to` are Lean keywords). -/
structure LegalMove where
  fromSq : String
  toSq : String
  uci : String
  piece : PieceType
  captured : Option PieceType := none
  promotion : Option PieceType := none
deriving DecidableEq

/-- Lower-case letter of a piece kind (used for promotion suffixes). -/
def typeChar (t : PieceType) : Char :=
  match t with
  | .p => 'p'
  | .n => 'n'
  | .b => 'b'
  | .r => 'r'
  | .q => 'q'
  | .k => 'k'

/-- The record built for one legal raw move in `getLegalMoves`'s final
`map` (without `san`).  The source reads the moving piece with a non-null
assertion; the default piece below is never used for a generated move. -/
def legalMoveRecord (state : GameState) (move : RawMove) : LegalMove :=
  let piece :=
    match getSq state.board move.fromR move.fromC with
    | some pc => pc
    | none => ⟨.w, .p⟩
  let captured := getSq state.board move.toR move.toC
  let capturedType0 := captured.map (·.type)
  -- Check en passant capture
  let capturedType :=
    match state.enPassant with
    | some ep =>
      if piece.type = .p && captured.isNone then
        let epRC := sqToRC ep
        if move.toR = epRC.1 && move.toC = epRC.2 then some PieceType.p
        else capturedType0
      else capturedType0
    | none => capturedType0
  { fromSq := rcToSq move.fromR move.fromC
    toSq := rcToSq move.toR move.toC
    uci := rcToSq move.fromR move.fromC ++ rcToSq move.toR move.toC ++
      (match move.promotion with
       | some pk => String.singleton (typeChar pk)
       | none => "")
    piece := piece.type
    captured := capturedType
    promotion := move.promotion }

/-- `getLegalMoves(state)` (records without `san`, see `LegalMove`). -/
def getLegalMovesCore (state : GameState) : List LegalMove :=
  (legalRawMoves state).map (legalMoveRecord state)

/-- `GameStatus` as in the source. -/
inductive GameStatus
  | playing
  | checkmate_white
  | checkmate_black
  | stalemate
  | draw_50
  | draw_insufficient
deriving DecidableEq

/-- The `pieces` collection of `getGameStatus`: every occupied square, in
row-major order. -/
def boardPieces (board : Board) : List Piece :=
  board.flatMap fun row => row.filterMap id

/-- `getGameStatus(state)` — the Status Classifier.  The source computes
`getLegalMoves(state)` and uses only its length, which equals the length
of `legalRawMoves` (the `san`-decorating `map` preserves length). -/
def getGameStatus (state : GameState) : GameStatus :=
  let moves := legalRawMoves state
  if moves.length = 0 then
    if isInCheck state.board state.turn then
      if state.turn = .w then .checkmate_black else .checkmate_white
    else .stalemate
  else if 100 ≤ state.halfmoveClock then .draw_50
  else
    let pieces := boardPieces state.board
    if pieces.length = 2 then .draw_insufficient
    else if pieces.length = 3 then
      match pieces.find? (fun pc => pc.type ≠ .k) with
      | some nonKing =>
        if nonKing.type = .b || nonKing.type = .n then .draw_insufficient
        else .playing
      | none => .playing
    else .playing

/-- `makeMove(state, uci)` — look the action string up among the legal
moves; `null` (here `none`) when it matches none of them. -/
def makeMove (state : GameState) (uci : String) :
    Option (GameState × LegalMove) :=
  match (getLegalMovesCore state).find? (fun m => m.uci = uci) with
  | none => none
  | some move =>
    let fromRC := sqToRC move.fromSq
    let toRC := sqToRC move.toSq
    some (applyRawMove state
      ⟨fromRC.1, fromRC.2, toRC.1, toRC.2, move.promotion⟩, move)

/-! ## The Position Codec -/

/-- JS `String.split` on a one-character separator (empty segments kept). -/
def splitSep (sep : Char) : List Char → List (List Char)
  | [] => [[]]
  | c :: rest =>
    match splitSep sep rest with
    | [] => [[]]
    | g :: gs => if c = sep then [] :: g :: gs else (c :: g) :: gs

/-- Joining with a one-character separator (inverse of `splitSep` on
separator-free parts). -/
def joinSep (sep : Char) : List (List Char) → List Char
  | [] => []
  | [l] => l
  | l :: rest => l ++ sep :: joinSep sep rest

/-- Decode one piece-placement letter.  The source classifies by case and
lower-cases the letter; a character that is neither a digit nor one of the
twelve piece letters would produce an ill-typed piece object, modelled as
`none`. -/
def pieceOfChar : Char → Option Piece
  | 'p' => some ⟨.b, .p⟩
  | 'n' => some ⟨.b, .n⟩
  | 'b' => some ⟨.b, .b⟩
  | 'r' => some ⟨.b, .r⟩
  | 'q' => some ⟨.b, .q⟩
  | 'k' => some ⟨.b, .k⟩
  | 'P' => some ⟨.w, .p⟩
  | 'N' => some ⟨.w, .n⟩
  | 'B' => some ⟨.w, .b⟩
  | 'R' => some ⟨.w, .r⟩
  | 'Q' => some ⟨.w, .q⟩
  | 'K' => some ⟨.w, .k⟩
  | _ => none

/-- Expand one rank of the piece-placement field: digits `1`–`8` become
runs of empty squares, letters become pieces.  No length check is made —
exactly as in the source, which accepts ranks of any width. -/
def expandRowChars : List Char → Option (List Square)
  | [] => some []
  | ch :: rest =>
    if '1' ≤ ch ∧ ch ≤ '8' then
      (expandRowChars rest).map fun tail =>
        List.replicate (ch.toNat - 48) none ++ tail
    else
      match pieceOfChar ch with
      | some piece => (expandRowChars rest).map fun tail => some piece :: tail
      | none => none

/-- Leading decimal digits of a character list. -/
def takeLeadingDigits : List Char → List Nat
  | [] => []
  | c :: rest => if c.isDigit then (c.toNat - 48) :: takeLeadingDigits rest else []

/-- JS `parseInt` for the non-negative numeric fields: value of the
leading digits, `none` when there is none (where JS yields `NaN`). -/
def parseNatChars (l : List Char) : Option Nat :=
  if takeLeadingDigits l = [] then none
  else some ((takeLeadingDigits l).foldl (fun a d => 10 * a + d) 0)

/-- `parseFEN(fen)` — the decoder.  `none` marks every input on which the
source does not produce a well-typed `GameState`: fewer than 8 ranks or a
missing field (a JS `TypeError`), a non-numeric clock (`NaN` fields), a
side-to-move letter other than `w`/`b` or a stray placement character
(ill-typed field values).  No other validation happens: rank widths are
not checked, surplus ranks and fields are ignored. -/
def parseFEN (fen : String) : Option GameState := do
  let parts := splitSep ' ' fen.toList
  let rows := splitSep '/' (parts.getD 0 [])
  if rows.length < 8 then none
  else do
    let board ← (rows.take 8).mapM expandRowChars
    let turn ←
      match parts.getD 1 [] with
      | ['w'] => some PieceColor.w
      | ['b'] => some PieceColor.b
      | _ => none
    if parts.length < 6 then none
    else do
      let castleField := parts.getD 2 []
      let epField := parts.getD 3 []
      let halfmove ← parseNatChars (parts.getD 4 [])
      let fullmove ← parseNatChars (parts.getD 5 [])
      some
        { board := board
          turn := turn
          castling :=
            ⟨castleField.contains 'K', castleField.contains 'Q',
             castleField.contains 'k', castleField.contains 'q'⟩
          enPassant := if epField = ['-'] then none else some (String.mk epField)
          halfmoveClock := halfmove
          fullmoveNumber := fullmove }

/-- Letter of a piece in the placement field (upper case for white). -/
def pieceChar (pc : Piece) : Char :=
  match pc.color with
  | .w =>
    match pc.type with
    | .p => 'P'
    | .n => 'N'
    | .b => 'B'
    | .r => 'R'
    | .q => 'Q'
    | .k => 'K'
  | .b => typeChar pc.type

/-- Little-endian decimal digits, with explicit fuel so the function is
structural (any `fuel ≥ n` gives the digits of `n`). -/
def digitsAux : Nat → Nat → List Nat
  | 0, _ => []
  | _ + 1, 0 => []
  | fuel + 1, n + 1 => ((n + 1) % 10) :: digitsAux fuel ((n + 1) / 10)

/-- Decimal digits of a number (JS template `${n}`). -/
def digitChars (n : Nat) : List Char :=
  if n = 0 then ['0'] else ((digitsAux n n).reverse.map Nat.digitChar)

/-- The run-length loop of `toFEN` over one rank, carrying the count of
empty squares seen since the last piece. -/
def rowFENgo : List Square → Nat → List Char
  | [], e => if e > 0 then digitChars e else []
  | none :: rest, e => rowFENgo rest (e + 1)
  | some pc :: rest, e =>
    (if e > 0 then digitChars e else []) ++ pieceChar pc :: rowFENgo rest 0

/-- One encoded rank: the source loops `c = 0..7` reading `board[r][c]`
(an absent square reads as empty). -/
def rowFEN (board : Board) (r : Nat) : List Char :=
  rowFENgo ((List.range 8).map fun c => getSq board (r : Int) (c : Int)) 0

/-- The castling field: letters in canonical `KQkq` order, `-` if none. -/
def castleFieldChars (cr : CastlingRights) : List Char :=
  let s := (if cr.K then ['K'] else []) ++ (if cr.Q then ['Q'] else [])
    ++ (if cr.k then ['k'] else []) ++ (if cr.q then ['q'] else [])
  if s = [] then ['-'] else s

/-- `toFEN(state)` — the encoder: six space-separated fields, ranks
separated by `/`. -/
def toFEN (state : GameState) : String :=
  String.mk (joinSep ' '
    [joinSep '/' ((List.range 8).map fun r => rowFEN state.board r),
     [if state.turn = .w then 'w' else 'b'],
     castleFieldChars state.castling,
     (match state.enPassant with
      | some ep => ep.toList
      | none => ['-']),
     digitChars state.halfmoveClock,
     digitChars state.fullmoveNumber])

/-- `const STARTING_FEN`. -/
def STARTING_FEN : String :=
  "rnbqkbnr/pppppppp/8/8/8/8/PPPPPPPP/RNBQKBNR w KQkq - 0 1"

/-- `createGame()` decodes the starting encoding (an `Option` because the
modelled decoder is one; it is `some` of the starting state). -/
def createGame : Option GameState :=
  parseFEN STARTING_FEN

/-! ## Claim C2 — the legality filter -/

/-- C2.  A pseudo-move is kept by the legality filter if and only if the
mover's own king is not attacked by the opponent in the resulting board:
`m` is in the legal-move list exactly when `m` is pseudo-legal and the
side to move of `s` is not in check after `applyRawMove s m`.  (Stated for
every state, which subsumes the claim's structurally valid ones.) -/
theorem legalRawMoves_mem_iff (s : GameState) (m : RawMove) :
    m ∈ legalRawMoves s ↔
      m ∈ generatePseudoLegalMoves s ∧
        isInCheck (applyRawMove s m).board s.turn = false := by
  simp [legalRawMoves, List.mem_filter]

/-! ## Claim C8 — castling rights never come back -/

/-- C8.  Castling rights are monotonically non-increasing under the state
transition: each of the four rights after `applyRawMove` is `≤` (as a
boolean) its value before, for every state and every move — so a right
that is `false` can never become `true` again.  `applyRawMove` is the only
operation that produces a successor state. -/
theorem castling_monotone (s : GameState) (m : RawMove) :
    (applyRawMove s m).castling.K ≤ s.castling.K ∧
      (applyRawMove s m).castling.Q ≤ s.castling.Q ∧
      (applyRawMove s m).castling.k ≤ s.castling.k ∧
      (applyRawMove s m).castling.q ≤ s.castling.q := by
  have h1 : ∀ pc cr, (clearKingRights pc cr).K ≤ cr.K ∧
      (clearKingRights pc cr).Q ≤ cr.Q ∧ (clearKingRights pc cr).k ≤ cr.k ∧
      (clearKingRights pc cr).q ≤ cr.q := by
    intro pc cr
    unfold clearKingRights
    repeat' split
    all_goals simp
  have h2 : ∀ pc mv cr, (clearRookRights pc mv cr).K ≤ cr.K ∧
      (clearRookRights pc mv cr).Q ≤ cr.Q ∧ (clearRookRights pc mv cr).k ≤ cr.k ∧
      (clearRookRights pc mv cr).q ≤ cr.q := by
    intro pc mv cr
    unfold clearRookRights
    repeat' split
    all_goals simp
  have h3 : ∀ cap mv cr, (clearCapturedRookRights cap mv cr).K ≤ cr.K ∧
      (clearCapturedRookRights cap mv cr).Q ≤ cr.Q ∧
      (clearCapturedRookRights cap mv cr).k ≤ cr.k ∧
      (clearCapturedRookRights cap mv cr).q ≤ cr.q := by
    intro cap mv cr
    cases cap with
    | none => exact ⟨le_refl _, le_refl _, le_refl _, le_refl _⟩
    | some cp =>
      unfold clearCapturedRookRights
      repeat' split
      all_goals simp
  have hc : (applyRawMove s m).castling =
      clearCapturedRookRights (getSq s.board m.toR m.toC) m
        (clearRookRights ((getSq s.board m.fromR m.fromC).getD ⟨.w, .p⟩) m
          (clearKingRights ((getSq s.board m.fromR m.fromC).getD ⟨.w, .p⟩)
            s.castling)) ∨ (applyRawMove s m).castling = s.castling := by
    unfold applyRawMove
    cases h : getSq s.board m.fromR m.fromC with
    | none => exact Or.inr rfl
    | some pc => exact Or.inl rfl
  rcases hc with hc | hc <;> rw [hc]
  · refine ⟨le_trans (h3 _ _ _).1 (le_trans (h2 _ _ _).1 (h1 _ _).1),
      le_trans (h3 _ _ _).2.1 (le_trans (h2 _ _ _).2.1 (h1 _ _).2.1),
      le_trans (h3 _ _ _).2.2.1 (le_trans (h2 _ _ _).2.2.1 (h1 _ _).2.2.1),
      le_trans (h3 _ _ _).2.2.2 (le_trans (h2 _ _ _).2.2.2 (h1 _ _).2.2.2)⟩
  · exact ⟨le_refl _, le_refl _, le_refl _, le_refl _⟩

/-! ## Claim C7 — `makeMove` by action string -/

/-- C7.  `makeMove state u` returns `none` exactly when `u` is the
coordinate (`uci`) encoding of none of the legal moves of `state`; it is a
total function (it cannot throw), and — all state being immutable values
in this model, exactly as the source's clone-then-mutate discipline
guarantees — the input state is never modified, a successful application
returning a separately built new state. -/
theorem makeMove_eq_none_iff (state : GameState) (u : String) :
    makeMove state u = none ↔
      ∀ m ∈ getLegalMovesCore state, m.uci ≠ u := by
  unfold makeMove
  cases h : (getLegalMovesCore state).find? (fun m => m.uci = u) with
  | none =>
    simp only [true_iff]
    intro m hm
    have := List.find?_eq_none.mp h m hm
    simpa using this
  | some mv =>
    simp only [reduceCtorEq, false_iff, not_forall]
    refine ⟨mv, List.mem_of_find?_eq_some h, ?_⟩
    have := List.find?_some h
    simpa using this

/-! ## Claim C1 — what the decoder accepts -/

/-- A six-field input whose last rank decodes to only two files. -/
def shortRankFEN : String := "8/8/8/8/8/8/8/kK w - - 0 1"

/-- C1 counterexample.  The claim says any input whose piece-placement
field does not decode to exactly 8 ranks of 8 files fails with a
`MalformedEncoding` error.  In fact `parseFEN` performs no such check: on
`shortRankFEN` (last rank `kK`, two files) it succeeds and hands the
caller a `GameState` whose board rows have lengths `[8,8,8,8,8,8,8,2]`. -/
theorem parseFEN_accepts_short_rank :
    (parseFEN shortRankFEN).map (fun st => st.board.map List.length) =
      some [8, 8, 8, 8, 8, 8, 8, 2] := by
  rfl

/-- An input with only two ranks in the placement field. -/
def twoRankFEN : String := "8/8 w - - 0 1"

/-- An input missing the two clock fields. -/
def missingFieldFEN : String := "8/8/8/8/8/8/8/8 w - -"

/-- C1 amended.  `parseFEN` does not validate the shape of the
piece-placement field: a placement whose ranks decode to widths other
than 8 is accepted silently and returned as decoded (no repair, no
error).  Only structurally unusable inputs — fewer than 8 ranks, or a
missing field — abort the decode, and they do so as untyped runtime
failures (modelled `none`), not as a `MalformedEncoding` value: no such
error exists anywhere in the engine. -/
theorem parseFEN_no_shape_validation :
    ((parseFEN shortRankFEN).map (fun st => st.board.map List.length) =
        some [8, 8, 8, 8, 8, 8, 8, 2]) ∧
      parseFEN twoRankFEN = none ∧
      parseFEN missingFieldFEN = none := by
  exact ⟨rfl, rfl, rfl⟩

end Chess

namespace Chess

/-! ## Claim C3 — the status classifier's decision order -/

/-- Number of kings of one colour on the board (structural validity asks
for exactly one per side). -/
def kingCount (board : Board) (color : PieceColor) : Nat :=
  (boardPieces board).countP fun pc => decide (pc.type = .k ∧ pc.color = color)

/-- Spec-side reading of the insufficient-material 3-piece case: "the sole
non-king piece is a bishop or knight". -/
def soleNonKingMinor (pieces : List Piece) : Bool :=
  match pieces.filter (fun pc => pc.type ≠ .k) with
  | [x] => x.type = .b || x.type = .n
  | _ => false

/-- The Status Classifier exactly as §4.7 of the spec words it: zero legal
moves → checkmate for the side not to move when in check, else stalemate;
otherwise halfmove clock ≥ 100 → fifty-move draw; otherwise two pieces, or
three with the sole non-king piece a bishop or knight → insufficient
material; otherwise in progress. -/
def statusSpec (state : GameState) : GameStatus :=
  if (legalRawMoves state).length = 0 then
    if isInCheck state.board state.turn then
      if state.turn = .w then .checkmate_black else .checkmate_white
    else .stalemate
  else if 100 ≤ state.halfmoveClock then .draw_50
  else if (boardPieces state.board).length = 2 then .draw_insufficient
  else if (boardPieces state.board).length = 3 ∧
      soleNonKingMinor (boardPieces state.board) = true then .draw_insufficient
  else .playing

theorem countP_king_split (l : List Piece) :
    l.countP (fun pc => decide (pc.type = PieceType.k)) =
      l.countP (fun pc => decide (pc.type = .k ∧ pc.color = .w)) +
        l.countP (fun pc => decide (pc.type = .k ∧ pc.color = .b)) := by
  induction l with
  | nil => rfl
  | cons a t ih =>
    rcases a with ⟨c, ty⟩
    cases c <;> by_cases hty : ty = PieceType.k <;>
      simp [List.countP_cons, hty, ih] <;> omega

theorem countP_king_not_king (l : List Piece) :
    l.countP (fun pc => decide (pc.type = PieceType.k)) +
      l.countP (fun pc => decide (¬ pc.type = PieceType.k)) = l.length := by
  induction l with
  | nil => rfl
  | cons a t ih =>
    by_cases h : a.type = PieceType.k
    · rw [List.countP_cons_of_pos _ _ (by simpa using h),
        List.countP_cons_of_neg _ _ (by simpa using h), List.length_cons]
      omega
    · rw [List.countP_cons_of_neg _ _ (by simpa using h),
        List.countP_cons_of_pos _ _ (by simpa using h), List.length_cons]
      omega

theorem find?_of_filter_eq_singleton {α : Type} (p : α → Bool) (l : List α)
    (x : α) (h : l.filter p = [x]) : l.find? p = some x := by
  induction l with
  | nil => simp at h
  | cons a t ih =>
    by_cases hp : p a
    · rw [List.filter_cons_of_pos hp] at h
      rw [List.find?_cons_of_pos _ hp]
      simpa using congrArg List.head? h
    · rw [List.filter_cons_of_neg (by simpa using hp)] at h
      rw [List.find?_cons_of_neg _ hp]
      exact ih h

/-- C3.  On every structurally valid state (exactly one king per side),
`getGameStatus` decides exactly in the spec's order — zero legal moves
first (checkmate attributed to the side not to move when in check, else
stalemate), then the fifty-move rule at halfmove clock ≥ 100 (so exactly
at 100, not 99), then insufficient material for two pieces or three with
the sole non-king piece a bishop or knight, else in progress: it equals
the spec-worded classifier `statusSpec`. -/
theorem getGameStatus_eq_statusSpec (s : GameState)
    (hw : kingCount s.board .w = 1) (hb : kingCount s.board .b = 1) :
    getGameStatus s = statusSpec s := by
  unfold getGameStatus statusSpec
  by_cases h0 : (legalRawMoves s).length = 0
  · simp only [h0, if_true]
  · simp only [h0, if_false]
    by_cases h50 : 100 ≤ s.halfmoveClock
    · simp only [h50, if_true]
    · simp only [h50, if_false]
      by_cases h2 : (boardPieces s.board).length = 2
      · simp only [h2, if_true]
      · simp only [h2, if_false]
        by_cases h3 : (boardPieces s.board).length = 3
        · -- exactly one non-king piece: the two classifications agree
          have hk : (boardPieces s.board).countP
              (fun pc => decide (pc.type = PieceType.k)) = 2 := by
            rw [countP_king_split]
            unfold kingCount at hw hb
            rw [hw, hb]
          have hnk : (boardPieces s.board).countP
              (fun pc => decide (¬ pc.type = PieceType.k)) = 1 := by
            have hsum := countP_king_not_king (boardPieces s.board)
            rw [h3, hk] at hsum
            omega
          have hfl : ((boardPieces s.board).filter
              (fun pc => decide (¬ pc.type = PieceType.k))).length = 1 := by
            rw [← List.countP_eq_length_filter]
            exact hnk
          obtain ⟨x, hx⟩ := List.length_eq_one.mp hfl
          have hfind := find?_of_filter_eq_singleton _ _ _ hx
          simp only [h3, if_pos]
          rw [hfind]
          unfold soleNonKingMinor
          rw [hx]
          by_cases hbn : x.type = PieceType.b ∨ x.type = PieceType.n
          · rcases hbn with hbn | hbn <;> simp [hbn]
          · push_neg at hbn
            simp [hbn.1, hbn.2]
        · have hcond : ¬ ((boardPieces s.board).length = 3 ∧
              soleNonKingMinor (boardPieces s.board) = true) := by
            intro hc
            exact h3 hc.1
          simp only [h3]
          simp

/-- A bare-kings position: black king a8, white king a1, white to move. -/
def bareKings : GameState :=
  { board := (some ⟨.b, .k⟩ :: List.replicate 7 none)
      :: List.replicate 6 (List.replicate 8 none)
      ++ [some ⟨.w, .k⟩ :: List.replicate 7 none]
    turn := .w
    castling := ⟨false, false, false, false⟩
    enPassant := none
    halfmoveClock := 0
    fullmoveNumber := 1 }

/-- Witness for C3: the bare-kings position has one king per side, and the
theorem applies to it. -/
theorem getGameStatus_eq_statusSpec_witness :
    kingCount bareKings.board .w = 1 ∧ kingCount bareKings.board .b = 1 ∧
      getGameStatus bareKings = statusSpec bareKings :=
  ⟨by decide, by decide,
    getGameStatus_eq_statusSpec bareKings (by decide) (by decide)⟩

end Chess

namespace Chess

/-! ## Board read/write lemmas (for the en-passant and round-trip claims) -/

theorem setSq_length (b : Board) (r c : Int) (v : Square) :
    (setSq b r c v).length = b.length := by
  unfold setSq
  split
  · exact List.length_set ..
  · rfl

theorem getD_mem_of_lt {α : Type} (l : List α) (n : Nat) (d : α)
    (h : n < l.length) : l.getD n d ∈ l := by
  rw [List.getD_eq_getElem?_getD, List.getElem?_eq_getElem h, Option.getD_some]
  exact List.getElem_mem h

theorem setSq_rows (b : Board) (r c : Int) (v : Square)
    (hrow : ∀ row ∈ b, row.length = 8) :
    ∀ row ∈ setSq b r c v, row.length = 8 := by
  unfold setSq
  split
  · intro row hmem
    rcases Nat.lt_or_ge r.toNat b.length with hlt | hge
    · rcases List.mem_or_eq_of_mem_set hmem with h | h
      · exact hrow row h
      · subst h
        rw [List.length_set]
        exact hrow _ (getD_mem_of_lt _ _ _ hlt)
    · rw [List.set_eq_of_length_le hge] at hmem
      exact hrow row hmem
  · exact fun row hmem => hrow row hmem

theorem getSq_setSq (b : Board) (r c r' c' : Int) (v : Square)
    (hb : b.length = 8) (hrow : ∀ row ∈ b, row.length = 8)
    (hr : 0 ≤ r ∧ r < 8) (hc : 0 ≤ c ∧ c < 8)
    (hr' : 0 ≤ r' ∧ r' < 8) (hc' : 0 ≤ c' ∧ c' < 8) :
    getSq (setSq b r c v) r' c' =
      if r = r' ∧ c = c' then v else getSq b r' c' := by
  have hrn : r.toNat < b.length := by omega
  have hrn' : r'.toNat < b.length := by omega
  have hget : ∀ bb : Board, getSq bb r' c' =
      (bb.getD r'.toNat []).getD c'.toNat none := by
    intro bb
    unfold getSq
    rw [if_pos ⟨hr'.1, hc'.1⟩]
  have hset : setSq b r c v =
      b.set r.toNat ((b.getD r.toNat []).set c.toNat v) := by
    unfold setSq
    rw [if_pos ⟨hr.1, hc.1⟩]
  rw [hset, hget, hget]
  have hlen : (b.getD r.toNat []).length = 8 :=
    hrow _ (getD_mem_of_lt _ _ _ hrn)
  by_cases hrr : r = r'
  · subst hrr
    have hrowD : (b.set r.toNat ((b.getD r.toNat []).set c.toNat v)).getD
        r.toNat [] = (b.getD r.toNat []).set c.toNat v := by
      rw [List.getD_eq_getElem?_getD, List.getElem?_set_self (by omega),
        Option.getD_some]
    rw [hrowD]
    by_cases hcc : c = c'
    · subst hcc
      rw [if_pos ⟨rfl, rfl⟩, List.getD_eq_getElem?_getD,
        List.getElem?_set_self (by omega), Option.getD_some]
    · rw [if_neg (by tauto), List.getD_eq_getElem?_getD,
        List.getElem?_set_ne (by omega), ← List.getD_eq_getElem?_getD]
  · rw [if_neg (by tauto)]
    have hrowD : (b.set r.toNat ((b.getD r.toNat []).set c.toNat v)).getD
        r'.toNat [] = b.getD r'.toNat [] := by
      rw [List.getD_eq_getElem?_getD, List.getElem?_set_ne (by omega),
        ← List.getD_eq_getElem?_getD]
    rw [hrowD]

/-! ## Claim C6 — en passant captures beside the destination -/

/-- C6.  When the state transition applies a pawn move whose destination
is the state's en-passant target (a capture: the origin and destination
differ in rank and file, and the destination square is empty), the
resulting board is empty at the square with the origin's rank and the
destination's file — the enemy pawn standing there is removed — while the
destination square itself receives the moving pawn (nothing is removed
from it); and the `LegalMove` record built for such a move reports
`captured = p` even though the destination square is empty. -/
theorem enPassant_removes_beside (s : GameState) (m : RawMove) (ep : String)
    (hb : s.board.length = 8) (hrow : ∀ row ∈ s.board, row.length = 8)
    (hfr : 0 ≤ m.fromR ∧ m.fromR < 8) (hfc : 0 ≤ m.fromC ∧ m.fromC < 8)
    (htr : 0 ≤ m.toR ∧ m.toR < 8) (htc : 0 ≤ m.toC ∧ m.toC < 8)
    (hep : s.enPassant = some ep)
    (hepRC : sqToRC ep = (m.toR, m.toC))
    (hpawn : getSq s.board m.fromR m.fromC = some ⟨s.turn, .p⟩)
    (henemy : getSq s.board m.fromR m.toC =
      some ⟨if s.turn = .w then PieceColor.b else .w, .p⟩)
    (hdr : m.toR ≠ m.fromR)
    (hpromo : m.promotion = none)
    (hdest : getSq s.board m.toR m.toC = none) :
    getSq (applyRawMove s m).board m.fromR m.toC = none ∧
      getSq (applyRawMove s m).board m.toR m.toC = some ⟨s.turn, .p⟩ ∧
      (legalMoveRecord s m).captured = some PieceType.p ∧
      (m ∈ legalRawMoves s → legalMoveRecord s m ∈ getLegalMovesCore s) := by
  have hdc : m.toC ≠ m.fromC := by
    intro h
    rw [h] at henemy
    rw [hpawn] at henemy
    cases ht : s.turn <;> rw [ht] at henemy <;> simp at henemy
  have happly : (applyRawMove s m).board =
      setSq (setSq (setSq s.board m.fromR m.toC none) m.toR m.toC
        (some ⟨s.turn, PieceType.p⟩)) m.fromR m.fromC none := by
    unfold applyRawMove
    rw [hpawn]
    dsimp only
    rw [hep]
    dsimp only
    rw [hepRC, hpromo]
    simp
  have hb1 : (setSq s.board m.fromR m.toC none).length = 8 := by
    rw [setSq_length]; exact hb
  have hrow1 := setSq_rows s.board m.fromR m.toC none hrow
  have hb2 : (setSq (setSq s.board m.fromR m.toC none) m.toR m.toC
      (some ⟨s.turn, PieceType.p⟩)).length = 8 := by
    rw [setSq_length]; exact hb1
  have hrow2 := setSq_rows _ m.toR m.toC (some ⟨s.turn, PieceType.p⟩) hrow1
  refine ⟨?_, ?_, ?_, ?_⟩
  · rw [happly,
      getSq_setSq _ _ _ _ _ _ hb2 hrow2 hfr hfc hfr htc,
      if_neg (by tauto),
      getSq_setSq _ _ _ _ _ _ hb1 hrow1 htr htc hfr htc,
      if_neg (by tauto),
      getSq_setSq _ _ _ _ _ _ hb hrow hfr htc hfr htc,
      if_pos ⟨rfl, rfl⟩]
  · rw [happly,
      getSq_setSq _ _ _ _ _ _ hb2 hrow2 hfr hfc htr htc,
      if_neg (by tauto),
      getSq_setSq _ _ _ _ _ _ hb1 hrow1 htr htc htr htc,
      if_pos ⟨rfl, rfl⟩]
  · unfold legalMoveRecord
    rw [hpawn, hdest, hep]
    simp [hepRC]
  · intro hmem
    exact List.mem_map_of_mem _ hmem

/-- The canonical en-passant position: after 1.e4 (…) e5–e4-style play,
white pawn e5, black just played d7–d5, en-passant target d6. -/
def epDemo : GameState :=
  (parseFEN "rnbqkbnr/ppp1pppp/8/3pP3/8/8/PPPP1PPP/RNBQKBNR w KQkq d6 0 3").getD
    bareKings

/-- The en-passant capture e5xd6 in `epDemo`, as a raw move. -/
def epDemoMove : RawMove := ⟨3, 4, 2, 3, none⟩

/-- Witness for C6: every hypothesis holds on the concrete position
`epDemo` with the capture e5xd6. -/
theorem enPassant_removes_beside_witness :
    getSq (applyRawMove epDemo epDemoMove).board 3 3 = none ∧
      getSq (applyRawMove epDemo epDemoMove).board 2 3 =
        some ⟨epDemo.turn, .p⟩ ∧
      (legalMoveRecord epDemo epDemoMove).captured = some PieceType.p ∧
      (epDemoMove ∈ legalRawMoves epDemo →
        legalMoveRecord epDemo epDemoMove ∈ getLegalMovesCore epDemo) := by
  have h := enPassant_removes_beside epDemo epDemoMove "d6"
    (by decide) (by decide) (by decide) (by decide) (by decide) (by decide)
    (by decide) (by decide) (by decide) (by decide) (by decide) (by decide)
    (by decide)
  exact h

end Chess

namespace Chess

/-! ## Origin lemmas for the pseudo-move generator -/

theorem pawnMoves_origin (board : Board) (turn : PieceColor)
    (ep : Option String) (r c : Int) (m : RawMove)
    (hm : m ∈ pawnMoves board turn ep r c) : m.fromR = r ∧ m.fromC = c := by
  unfold pawnMoves at hm
  dsimp only at hm
  rcases List.mem_append.mp hm with h | h
  · repeat' split at h
    all_goals clear hm
    all_goals
      first
        | exact absurd h (List.not_mem_nil _)
        | (rcases List.mem_singleton.mp h with rfl; exact ⟨rfl, rfl⟩)
        | (obtain ⟨pk, -, rfl⟩ := List.mem_map.mp h; exact ⟨rfl, rfl⟩)
        | (rcases List.mem_append.mp h with h | h <;>
            first
              | exact absurd h (List.not_mem_nil _)
              | (rcases List.mem_singleton.mp h with rfl; exact ⟨rfl, rfl⟩)
              | (obtain ⟨pk, -, rfl⟩ := List.mem_map.mp h; exact ⟨rfl, rfl⟩))
  · obtain ⟨dc, -, h⟩ := List.mem_flatMap.mp h
    try dsimp only at h
    repeat' split at h
    all_goals clear hm
    all_goals
      first
        | exact absurd h (List.not_mem_nil _)
        | (rcases List.mem_singleton.mp h with rfl; exact ⟨rfl, rfl⟩)
        | (obtain ⟨pk, -, rfl⟩ := List.mem_map.mp h; exact ⟨rfl, rfl⟩)
        | (rcases List.mem_append.mp h with h | h <;>
            first
              | exact absurd h (List.not_mem_nil _)
              | (rcases List.mem_singleton.mp h with rfl; exact ⟨rfl, rfl⟩)
              | (obtain ⟨pk, -, rfl⟩ := List.mem_map.mp h; exact ⟨rfl, rfl⟩))

theorem knightBranch_origin (board : Board) (turn : PieceColor)
    (r c : Int) (m : RawMove) (hm : m ∈ knightBranch board turn r c) :
    m.fromR = r ∧ m.fromC = c := by
  unfold knightBranch at hm
  obtain ⟨d, -, h⟩ := List.mem_flatMap.mp hm
  try dsimp only at h
  repeat' split at h
  all_goals clear hm
  all_goals
    first
      | exact absurd h (List.not_mem_nil _)
      | (rcases List.mem_singleton.mp h with rfl; exact ⟨rfl, rfl⟩)
      | (obtain ⟨pk, -, rfl⟩ := List.mem_map.mp h; exact ⟨rfl, rfl⟩)
      | (rcases List.mem_append.mp h with h | h <;>
          first
            | exact absurd h (List.not_mem_nil _)
            | (rcases List.mem_singleton.mp h with rfl; exact ⟨rfl, rfl⟩)
            | (obtain ⟨pk, -, rfl⟩ := List.mem_map.mp h; exact ⟨rfl, rfl⟩))

theorem slideRay_origin (board : Board) (turn : PieceColor) (r c : Int) :
    ∀ (fuel : Nat) (nr nc dr dc : Int) (m : RawMove),
      m ∈ slideRay board turn r c fuel nr nc dr dc →
        m.fromR = r ∧ m.fromC = c := by
  intro fuel
  induction fuel with
  | zero => intro nr nc dr dc m hm; simp [slideRay] at hm
  | succ n ih =>
    intro nr nc dr dc m hm
    unfold slideRay at hm
    split at hm
    · split at hm
      · split at hm
        · rcases List.mem_singleton.mp hm with rfl
          exact ⟨rfl, rfl⟩
        · simp at hm
      · rcases List.mem_cons.mp hm with rfl | hm
        · exact ⟨rfl, rfl⟩
        · exact ih _ _ _ _ _ hm
    · simp at hm

theorem slideBranch_origin (board : Board) (turn : PieceColor)
    (t : PieceType) (r c : Int) (m : RawMove)
    (hm : m ∈ slideBranch board turn t r c) : m.fromR = r ∧ m.fromC = c := by
  unfold slideBranch at hm
  obtain ⟨d, -, h⟩ := List.mem_flatMap.mp hm
  exact slideRay_origin board turn r c 16 _ _ _ _ m h

theorem kingSteps_origin (board : Board) (turn : PieceColor)
    (r c : Int) (m : RawMove) (hm : m ∈ kingSteps board turn r c) :
    m.fromR = r ∧ m.fromC = c := by
  unfold kingSteps at hm
  obtain ⟨dr, -, h⟩ := List.mem_flatMap.mp hm
  obtain ⟨dc, -, h⟩ := List.mem_flatMap.mp h
  try dsimp only at h
  repeat' split at h
  all_goals clear hm
  all_goals
    first
      | exact absurd h (List.not_mem_nil _)
      | (rcases List.mem_singleton.mp h with rfl; exact ⟨rfl, rfl⟩)
      | (obtain ⟨pk, -, rfl⟩ := List.mem_map.mp h; exact ⟨rfl, rfl⟩)
      | (rcases List.mem_append.mp h with h | h <;>
          first
            | exact absurd h (List.not_mem_nil _)
            | (rcases List.mem_singleton.mp h with rfl; exact ⟨rfl, rfl⟩)
            | (obtain ⟨pk, -, rfl⟩ := List.mem_map.mp h; exact ⟨rfl, rfl⟩))

theorem kingCastles_origin (board : Board) (turn : PieceColor)
    (cr : CastlingRights) (r c : Int) (m : RawMove)
    (hm : m ∈ kingCastles board turn cr r c) :
    m.fromR = r ∧ m.fromC = c := by
  unfold kingCastles at hm
  dsimp only at hm
  split at hm <;>
    rcases List.mem_append.mp hm with h | h <;>
    (repeat' split at h) <;>
    first
      | (rcases List.mem_singleton.mp h with rfl; exact ⟨rfl, rfl⟩)
      | simp at h

theorem movesFrom_origin (s : GameState) (r c : Int) (m : RawMove)
    (hm : m ∈ movesFrom s r c) : m.fromR = r ∧ m.fromC = c := by
  unfold movesFrom at hm
  split at hm
  · simp at hm
  · split at hm
    · simp at hm
    · split at hm
      · exact pawnMoves_origin _ _ _ _ _ _ hm
      · exact knightBranch_origin _ _ _ _ _ hm
      · exact slideBranch_origin _ _ _ _ _ _ hm
      · exact slideBranch_origin _ _ _ _ _ _ hm
      · exact slideBranch_origin _ _ _ _ _ _ hm
      · rcases List.mem_append.mp hm with h | h
        · exact kingSteps_origin _ _ _ _ _ h
        · exact kingCastles_origin _ _ _ _ _ _ h

theorem mem_generatePseudoLegalMoves_iff (s : GameState) (m : RawMove) :
    m ∈ generatePseudoLegalMoves s ↔
      ∃ r, r ∈ List.range 8 ∧ ∃ c, c ∈ List.range 8 ∧
        m ∈ movesFrom s (r : Int) (c : Int) := by
  unfold generatePseudoLegalMoves
  simp [List.mem_flatMap]

/-- Membership of a move with a fixed origin square reduces to membership
in the scan of that one square. -/
theorem mem_pseudo_fixed_origin (s : GameState) (m : RawMove) (r c : Nat)
    (hr : r < 8) (hc : c < 8) (hfr : m.fromR = (r : Int))
    (hfc : m.fromC = (c : Int)) :
    m ∈ generatePseudoLegalMoves s ↔ m ∈ movesFrom s (r : Int) (c : Int) := by
  rw [mem_generatePseudoLegalMoves_iff]
  constructor
  · rintro ⟨r', hr', c', hc', hmem⟩
    obtain ⟨h1, h2⟩ := movesFrom_origin _ _ _ _ hmem
    have : (r' : Int) = (r : Int) := by rw [← h1, hfr]
    have hrr : r' = r := by exact_mod_cast this
    have : (c' : Int) = (c : Int) := by rw [← h2, hfc]
    have hcc : c' = c := by exact_mod_cast this
    subst hrr
    subst hcc
    exact hmem
  · intro hmem
    exact ⟨r, List.mem_range.mpr hr, c, List.mem_range.mpr hc, hmem⟩

end Chess

namespace Chess

/-! ## Claim C5 — when castling is emitted -/

/-- Destination shape of the king's eight-step moves. -/
theorem kingSteps_shape (board : Board) (turn : PieceColor) (r c : Int)
    (m : RawMove) (hm : m ∈ kingSteps board turn r c) :
    ∃ dr ∈ unitRange, ∃ dc ∈ unitRange, m.toR = r + dr ∧ m.toC = c + dc := by
  unfold kingSteps at hm
  obtain ⟨dr, hdr, h⟩ := List.mem_flatMap.mp hm
  obtain ⟨dc, hdc, h⟩ := List.mem_flatMap.mp h
  try dsimp only at h
  repeat' split at h
  all_goals
    first
      | exact absurd h (List.not_mem_nil _)
      | (rcases List.mem_singleton.mp h with rfl
         exact ⟨dr, hdr, dc, hdc, rfl, rfl⟩)

/-- The claim's conditions (a)–(d) for white kingside castling, read off
the board with the engine's own predicates: right still set, both squares
between king and rook empty, the white rook on h1, and none of e1 (the
king's square), f1 (transit), g1 (destination) attacked by black. -/
def wkCastleReady (board : Board) (cr : CastlingRights) : Prop :=
  cr.K = true ∧ getSq board 7 5 = none ∧ getSq board 7 6 = none ∧
    getSq board 7 7 = some ⟨.w, .r⟩ ∧
    isAttackedBy board 7 4 .b = false ∧ isAttackedBy board 7 5 .b = false ∧
    isAttackedBy board 7 6 .b = false

/-- Conditions for white queenside castling: right set, b1/c1/d1 empty,
white rook a1, none of e1/d1/c1 attacked by black. -/
def wqCastleReady (board : Board) (cr : CastlingRights) : Prop :=
  cr.Q = true ∧ getSq board 7 3 = none ∧ getSq board 7 2 = none ∧
    getSq board 7 1 = none ∧ getSq board 7 0 = some ⟨.w, .r⟩ ∧
    isAttackedBy board 7 4 .b = false ∧ isAttackedBy board 7 3 .b = false ∧
    isAttackedBy board 7 2 .b = false

/-- Conditions for black kingside castling. -/
def bkCastleReady (board : Board) (cr : CastlingRights) : Prop :=
  cr.k = true ∧ getSq board 0 5 = none ∧ getSq board 0 6 = none ∧
    getSq board 0 7 = some ⟨.b, .r⟩ ∧
    isAttackedBy board 0 4 .w = false ∧ isAttackedBy board 0 5 .w = false ∧
    isAttackedBy board 0 6 .w = false

/-- Conditions for black queenside castling. -/
def bqCastleReady (board : Board) (cr : CastlingRights) : Prop :=
  cr.q = true ∧ getSq board 0 3 = none ∧ getSq board 0 2 = none ∧
    getSq board 0 1 = none ∧ getSq board 0 0 = some ⟨.b, .r⟩ ∧
    isAttackedBy board 0 4 .w = false ∧ isAttackedBy board 0 3 .w = false ∧
    isAttackedBy board 0 2 .w = false

theorem mem_kingCastles_wk (board : Board) (cr : CastlingRights) (r c : Int) :
    RawMove.mk r c 7 6 none ∈ kingCastles board .w cr r c ↔
      wkCastleReady board cr := by
  unfold kingCastles wkCastleReady
  dsimp only
  rw [if_pos rfl]
  rw [show (if PieceColor.w = PieceColor.w then PieceColor.b else PieceColor.w)
      = PieceColor.b from rfl]
  constructor
  · intro hm
    rcases List.mem_append.mp hm with h | h
    · split at h
      · split at h
        · rename_i hcond hatt
          simp only [Bool.and_eq_true, Option.isNone_iff_eq_none] at hcond
          simp only [Bool.and_eq_true, Bool.not_eq_true'] at hatt
          obtain ⟨⟨⟨hK, h5⟩, h6⟩, hrk⟩ := hcond
          obtain ⟨⟨ha4, ha5⟩, ha6⟩ := hatt
          refine ⟨hK, h5, h6, ?_, ha4, ha5, ha6⟩
          cases hr7 : getSq board 7 7 with
          | none => rw [hr7] at hrk; simp at hrk
          | some p =>
            rw [hr7] at hrk
            simp only [Bool.and_eq_true, decide_eq_true_eq] at hrk
            cases p
            simp_all
        · exact absurd h (List.not_mem_nil _)
      · exact absurd h (List.not_mem_nil _)
    · repeat' split at h
      all_goals
        first
          | exact absurd h (List.not_mem_nil _)
          | (have hx := List.mem_singleton.mp h; simp at hx)
  · rintro ⟨hK, h5, h6, hrk, ha4, ha5, ha6⟩
    refine List.mem_append.mpr (Or.inl ?_)
    rw [if_pos (by simp [hK, h5, h6, hrk]), if_pos (by simp [ha4, ha5, ha6])]
    exact List.mem_singleton.mpr rfl

theorem mem_kingCastles_wq (board : Board) (cr : CastlingRights) (r c : Int) :
    RawMove.mk r c 7 2 none ∈ kingCastles board .w cr r c ↔
      wqCastleReady board cr := by
  unfold kingCastles wqCastleReady
  dsimp only
  rw [if_pos rfl]
  rw [show (if PieceColor.w = PieceColor.w then PieceColor.b else PieceColor.w)
      = PieceColor.b from rfl]
  constructor
  · intro hm
    rcases List.mem_append.mp hm with h | h
    · repeat' split at h
      all_goals
        first
          | exact absurd h (List.not_mem_nil _)
          | (have hx := List.mem_singleton.mp h; simp at hx)
    · split at h
      · split at h
        · rename_i hcond hatt
          simp only [Bool.and_eq_true, Option.isNone_iff_eq_none] at hcond
          simp only [Bool.and_eq_true, Bool.not_eq_true'] at hatt
          obtain ⟨⟨⟨⟨hQ, h3⟩, h2⟩, h1⟩, hrk⟩ := hcond
          obtain ⟨⟨ha4, ha3⟩, ha2⟩ := hatt
          refine ⟨hQ, h3, h2, h1, ?_, ha4, ha3, ha2⟩
          cases hr0 : getSq board 7 0 with
          | none => rw [hr0] at hrk; simp at hrk
          | some p =>
            rw [hr0] at hrk
            simp only [Bool.and_eq_true, decide_eq_true_eq] at hrk
            cases p
            simp_all
        · exact absurd h (List.not_mem_nil _)
      · exact absurd h (List.not_mem_nil _)
  · rintro ⟨hQ, h3, h2, h1, hrk, ha4, ha3, ha2⟩
    refine List.mem_append.mpr (Or.inr ?_)
    rw [if_pos (by simp [hQ, h3, h2, h1, hrk]), if_pos (by simp [ha4, ha3, ha2])]
    exact List.mem_singleton.mpr rfl

theorem mem_kingCastles_bk (board : Board) (cr : CastlingRights) (r c : Int) :
    RawMove.mk r c 0 6 none ∈ kingCastles board .b cr r c ↔
      bkCastleReady board cr := by
  unfold kingCastles bkCastleReady
  dsimp only
  rw [if_neg (by simp)]
  rw [show (if PieceColor.b = PieceColor.w then PieceColor.b else PieceColor.w)
      = PieceColor.w from rfl]
  constructor
  · intro hm
    rcases List.mem_append.mp hm with h | h
    · split at h
      · split at h
        · rename_i hcond hatt
          simp only [Bool.and_eq_true, Option.isNone_iff_eq_none] at hcond
          simp only [Bool.and_eq_true, Bool.not_eq_true'] at hatt
          obtain ⟨⟨⟨hk, h5⟩, h6⟩, hrk⟩ := hcond
          obtain ⟨⟨ha4, ha5⟩, ha6⟩ := hatt
          refine ⟨hk, h5, h6, ?_, ha4, ha5, ha6⟩
          cases hr7 : getSq board 0 7 with
          | none => rw [hr7] at hrk; simp at hrk
          | some p =>
            rw [hr7] at hrk
            simp only [Bool.and_eq_true, decide_eq_true_eq] at hrk
            cases p
            simp_all
        · exact absurd h (List.not_mem_nil _)
      · exact absurd h (List.not_mem_nil _)
    · repeat' split at h
      all_goals
        first
          | exact absurd h (List.not_mem_nil _)
          | (have hx := List.mem_singleton.mp h; simp at hx)
  · rintro ⟨hk, h5, h6, hrk, ha4, ha5, ha6⟩
    refine List.mem_append.mpr (Or.inl ?_)
    rw [if_pos (by simp [hk, h5, h6, hrk]), if_pos (by simp [ha4, ha5, ha6])]
    exact List.mem_singleton.mpr rfl

theorem mem_kingCastles_bq (board : Board) (cr : CastlingRights) (r c : Int) :
    RawMove.mk r c 0 2 none ∈ kingCastles board .b cr r c ↔
      bqCastleReady board cr := by
  unfold kingCastles bqCastleReady
  dsimp only
  rw [if_neg (by simp)]
  rw [show (if PieceColor.b = PieceColor.w then PieceColor.b else PieceColor.w)
      = PieceColor.w from rfl]
  constructor
  · intro hm
    rcases List.mem_append.mp hm with h | h
    · repeat' split at h
      all_goals
        first
          | exact absurd h (List.not_mem_nil _)
          | (have hx := List.mem_singleton.mp h; simp at hx)
    · split at h
      · split at h
        · rename_i hcond hatt
          simp only [Bool.and_eq_true, Option.isNone_iff_eq_none] at hcond
          simp only [Bool.and_eq_true, Bool.not_eq_true'] at hatt
          obtain ⟨⟨⟨⟨hq, h3⟩, h2⟩, h1⟩, hrk⟩ := hcond
          obtain ⟨⟨ha4, ha3⟩, ha2⟩ := hatt
          refine ⟨hq, h3, h2, h1, ?_, ha4, ha3, ha2⟩
          cases hr0 : getSq board 0 0 with
          | none => rw [hr0] at hrk; simp at hrk
          | some p =>
            rw [hr0] at hrk
            simp only [Bool.and_eq_true, decide_eq_true_eq] at hrk
            cases p
            simp_all
        · exact absurd h (List.not_mem_nil _)
      · exact absurd h (List.not_mem_nil _)
  · rintro ⟨hq, h3, h2, h1, hrk, ha4, ha3, ha2⟩
    refine List.mem_append.mpr (Or.inr ?_)
    rw [if_pos (by simp [hq, h3, h2, h1, hrk]), if_pos (by simp [ha4, ha3, ha2])]
    exact List.mem_singleton.mpr rfl

end Chess

namespace Chess

theorem mem_pseudo_fixed_origin_int (s : GameState) (m : RawMove) (r c : Int)
    (hr : 0 ≤ r ∧ r < 8) (hc : 0 ≤ c ∧ c < 8)
    (hfr : m.fromR = r) (hfc : m.fromC = c) :
    m ∈ generatePseudoLegalMoves s ↔ m ∈ movesFrom s r c := by
  have hrn : ((r.toNat : Nat) : Int) = r := Int.toNat_of_nonneg hr.1
  have hcn : ((c.toNat : Nat) : Int) = c := Int.toNat_of_nonneg hc.1
  have h := mem_pseudo_fixed_origin s m r.toNat c.toNat (by omega) (by omega)
    (by rw [hrn]; exact hfr) (by rw [hcn]; exact hfc)
  rw [hrn, hcn] at h
  exact h

theorem castle_not_mem_kingSteps (board : Board) (turn : PieceColor)
    (r c toR toC : Int) (h2 : toC = c + 2 ∨ toC = c - 2) :
    RawMove.mk r c toR toC none ∉ kingSteps board turn r c := by
  intro hmem
  obtain ⟨dr, hdr, dc, hdc, hR, hC⟩ := kingSteps_shape _ _ _ _ _ hmem
  simp only [unitRange, List.mem_cons, List.not_mem_nil, or_false] at hdc
  dsimp only at hC
  rcases hdc with rfl | rfl | rfl <;> omega

/-- C5.  The pseudo-move generator emits a castling action for a side if
and only if (a) that side's castling right is set, (b) the squares
strictly between the king's and rook's home squares are empty, (c) a rook
of the side stands on its home square, and (d) none of the king's square,
transit square and destination square is attacked by the opponent — the
`…CastleReady` conditions.  Stated for each side to move with its king on
its home square (there a move from the home square to the castling
destination can only arise from the castling branch). -/
theorem castling_emitted_iff (s : GameState) :
    (s.turn = .w → getSq s.board 7 4 = some ⟨.w, .k⟩ →
      ((RawMove.mk 7 4 7 6 none ∈ generatePseudoLegalMoves s ↔
          wkCastleReady s.board s.castling) ∧
        (RawMove.mk 7 4 7 2 none ∈ generatePseudoLegalMoves s ↔
          wqCastleReady s.board s.castling))) ∧
    (s.turn = .b → getSq s.board 0 4 = some ⟨.b, .k⟩ →
      ((RawMove.mk 0 4 0 6 none ∈ generatePseudoLegalMoves s ↔
          bkCastleReady s.board s.castling) ∧
        (RawMove.mk 0 4 0 2 none ∈ generatePseudoLegalMoves s ↔
          bqCastleReady s.board s.castling))) := by
  constructor
  · intro hturn hking
    have hmf : movesFrom s 7 4 =
        kingBranch s.board PieceColor.w s.castling 7 4 := by
      unfold movesFrom
      rw [hking, hturn]
      simp
    constructor
    · rw [mem_pseudo_fixed_origin_int s _ 7 4 (by norm_num) (by norm_num)
        rfl rfl, hmf]
      unfold kingBranch
      rw [List.mem_append]
      constructor
      · rintro (h | h)
        · exact absurd h (castle_not_mem_kingSteps _ _ _ _ _ _ (by norm_num))
        · exact (mem_kingCastles_wk _ _ _ _).mp h
      · intro h
        exact Or.inr ((mem_kingCastles_wk _ _ _ _).mpr h)
    · rw [mem_pseudo_fixed_origin_int s _ 7 4 (by norm_num) (by norm_num)
        rfl rfl, hmf]
      unfold kingBranch
      rw [List.mem_append]
      constructor
      · rintro (h | h)
        · exact absurd h (castle_not_mem_kingSteps _ _ _ _ _ _ (by norm_num))
        · exact (mem_kingCastles_wq _ _ _ _).mp h
      · intro h
        exact Or.inr ((mem_kingCastles_wq _ _ _ _).mpr h)
  · intro hturn hking
    have hmf : movesFrom s 0 4 =
        kingBranch s.board PieceColor.b s.castling 0 4 := by
      unfold movesFrom
      rw [hking, hturn]
      simp
    constructor
    · rw [mem_pseudo_fixed_origin_int s _ 0 4 (by norm_num) (by norm_num)
        rfl rfl, hmf]
      unfold kingBranch
      rw [List.mem_append]
      constructor
      · rintro (h | h)
        · exact absurd h (castle_not_mem_kingSteps _ _ _ _ _ _ (by norm_num))
        · exact (mem_kingCastles_bk _ _ _ _).mp h
      · intro h
        exact Or.inr ((mem_kingCastles_bk _ _ _ _).mpr h)
    · rw [mem_pseudo_fixed_origin_int s _ 0 4 (by norm_num) (by norm_num)
        rfl rfl, hmf]
      unfold kingBranch
      rw [List.mem_append]
      constructor
      · rintro (h | h)
        · exact absurd h (castle_not_mem_kingSteps _ _ _ _ _ _ (by norm_num))
        · exact (mem_kingCastles_bq _ _ _ _).mp h
      · intro h
        exact Or.inr ((mem_kingCastles_bq _ _ _ _).mpr h)

/-- A castling-ready position: both sides retain all rights, white to
move, kings and rooks on their home squares. -/
def castleDemo : GameState :=
  (parseFEN "r3k2r/8/8/8/8/8/8/R3K2R w KQkq - 0 1").getD bareKings

/-- Witness for C5: the theorem applied to `castleDemo` (white to move,
king on e1). -/
theorem castling_emitted_iff_witness :
    ((RawMove.mk 7 4 7 6 none ∈ generatePseudoLegalMoves castleDemo ↔
        wkCastleReady castleDemo.board castleDemo.castling) ∧
      (RawMove.mk 7 4 7 2 none ∈ generatePseudoLegalMoves castleDemo ↔
        wqCastleReady castleDemo.board castleDemo.castling)) :=
  (castling_emitted_iff castleDemo).1 (by decide) (by decide)

end Chess

namespace Chess

/-! ## Claim C4 — encode/decode round trip: string-level lemmas -/

theorem splitSep_cons (sep c : Char) (t : List Char) :
    splitSep sep (c :: t) =
      match splitSep sep t with
      | [] => [[]]
      | g :: gs => if c = sep then [] :: g :: gs else (c :: g) :: gs := rfl

theorem splitSep_ne_nil (sep : Char) (l : List Char) :
    splitSep sep l ≠ [] := by
  cases l with
  | nil => simp [splitSep]
  | cons c rest =>
    rw [splitSep_cons]
    cases splitSep sep rest with
    | nil => simp
    | cons g gs =>
      dsimp only
      split <;> simp

theorem splitSep_sepFree (sep : Char) (p : List Char) (hp : sep ∉ p) :
    splitSep sep p = [p] := by
  induction p with
  | nil => rfl
  | cons c rest ih =>
    have hc : c ≠ sep := fun h => hp (h ▸ List.mem_cons_self c rest)
    have hrest : sep ∉ rest := fun h => hp (List.mem_cons_of_mem c h)
    rw [splitSep_cons, ih hrest]
    simp [hc]

theorem splitSep_append_cons (sep : Char) (p l : List Char) (hp : sep ∉ p) :
    splitSep sep (p ++ sep :: l) = p :: splitSep sep l := by
  induction p with
  | nil =>
    simp only [List.nil_append]
    obtain ⟨g, gs, h⟩ : ∃ g gs, splitSep sep l = g :: gs := by
      cases h : splitSep sep l with
      | nil => exact absurd h (splitSep_ne_nil sep l)
      | cons g gs => exact ⟨g, gs, rfl⟩
    rw [splitSep_cons, h]
    simp
  | cons c rest ih =>
    have hc : c ≠ sep := fun h => hp (h ▸ List.mem_cons_self c rest)
    have hrest : sep ∉ rest := fun h => hp (List.mem_cons_of_mem c h)
    simp only [List.cons_append]
    rw [splitSep_cons, ih hrest]
    simp [hc]

theorem splitSep_joinSep (sep : Char) (parts : List (List Char))
    (hne : parts ≠ []) (hfree : ∀ p ∈ parts, sep ∉ p) :
    splitSep sep (joinSep sep parts) = parts := by
  induction parts with
  | nil => exact absurd rfl hne
  | cons p rest ih =>
    cases rest with
    | nil =>
      exact splitSep_sepFree sep p (hfree p (List.mem_cons_self p []))
    | cons q rest2 =>
      have hj : joinSep sep (p :: q :: rest2) =
          p ++ sep :: joinSep sep (q :: rest2) := rfl
      rw [hj, splitSep_append_cons sep p _ (hfree p (by simp))]
      rw [ih (by simp) (fun x hx => hfree x (List.mem_cons_of_mem p hx))]

theorem digitsAux_spec : ∀ (fuel n : Nat), n ≤ fuel →
    Nat.ofDigits 10 (digitsAux fuel n) = n ∧
      (∀ d ∈ digitsAux fuel n, d < 10) := by
  intro fuel
  induction fuel with
  | zero =>
    intro n hn
    interval_cases n
    exact ⟨by simp [digitsAux], by simp [digitsAux]⟩
  | succ f ih =>
    intro n hn
    cases n with
    | zero => exact ⟨by simp [digitsAux], by simp [digitsAux]⟩
    | succ m =>
      have hdiv : (m + 1) / 10 ≤ f := by omega
      obtain ⟨h1, h2⟩ := ih _ hdiv
      constructor
      · show Nat.ofDigits 10 (((m + 1) % 10) :: digitsAux f ((m + 1) / 10)) =
          (m + 1 : Nat)
        rw [Nat.ofDigits_cons, h1]
        omega
      · intro d hd
        rcases List.mem_cons.mp hd with rfl | hd
        · omega
        · exact h2 d hd

/-- Digit characters of a small positive count: a single digit `1`–`8`,
and its decoded value is the count. -/
theorem digitChars_small (e : Nat) (h1 : 1 ≤ e) (h8 : e ≤ 8) :
    digitChars e = [Nat.digitChar e] ∧
      ('1' ≤ Nat.digitChar e ∧ Nat.digitChar e ≤ '8') ∧
      (Nat.digitChar e).toNat - 48 = e := by
  interval_cases e <;> exact ⟨rfl, by decide, by decide⟩

theorem digitChar_is_digit (d : Nat) (h : d < 10) :
    (Nat.digitChar d).isDigit = true ∧ (Nat.digitChar d).toNat - 48 = d := by
  interval_cases d <;> exact ⟨rfl, rfl⟩

theorem foldl_digits (L : List Nat) (a : Nat) :
    L.foldl (fun x d => 10 * x + d) a =
      a * 10 ^ L.length + Nat.ofDigits 10 L.reverse := by
  induction L generalizing a with
  | nil => simp
  | cons c t ih =>
    rw [List.foldl_cons, ih (10 * a + c), List.reverse_cons,
      Nat.ofDigits_append]
    simp [Nat.ofDigits_singleton, List.length_reverse, pow_succ]
    ring

theorem takeLeadingDigits_map (ds : List Nat) (h : ∀ d ∈ ds, d < 10) :
    takeLeadingDigits (ds.map Nat.digitChar) = ds := by
  induction ds with
  | nil => rfl
  | cons d t ih =>
    have hd := digitChar_is_digit d (h d (by simp))
    unfold takeLeadingDigits
    simp only [List.map_cons]
    rw [if_pos hd.1, hd.2, ih (fun x hx => h x (by simp [hx]))]

theorem parseNatChars_digitChars (n : Nat) :
    parseNatChars (digitChars n) = some n := by
  by_cases h0 : n = 0
  · subst h0
    rfl
  · obtain ⟨hval, hlt⟩ := digitsAux_spec n n (le_refl n)
    unfold digitChars
    rw [if_neg h0]
    unfold parseNatChars
    rw [takeLeadingDigits_map _ (fun d hd => hlt d (List.mem_reverse.mp hd))]
    have hne : (digitsAux n n).reverse ≠ [] := by
      intro h
      have hnil : digitsAux n n = [] := by
        simpa using congrArg List.reverse h
      rw [hnil] at hval
      simp [Nat.ofDigits_nil] at hval
      exact h0 hval.symm
    rw [if_neg hne, foldl_digits, List.reverse_reverse, hval]
    simp

/-! ### Rank-level round trip -/

theorem expandRowChars_cons (ch : Char) (rest : List Char) :
    expandRowChars (ch :: rest) =
      if '1' ≤ ch ∧ ch ≤ '8' then
        (expandRowChars rest).map fun tail =>
          List.replicate (ch.toNat - 48) none ++ tail
      else
        match pieceOfChar ch with
        | some piece => (expandRowChars rest).map fun tail => some piece :: tail
        | none => none := rfl

theorem expandRow_digit (e : Nat) (h1 : 1 ≤ e) (h8 : e ≤ 8) (l : List Char) :
    expandRowChars (digitChars e ++ l) =
      (expandRowChars l).map fun tail => List.replicate e none ++ tail := by
  obtain ⟨hd, hr, hv⟩ := digitChars_small e h1 h8
  rw [hd, List.cons_append, List.nil_append, expandRowChars_cons, if_pos hr, hv]

theorem expandRow_pieceCons (pc : Piece) (l : List Char) :
    expandRowChars (pieceChar pc :: l) =
      (expandRowChars l).map fun tail => some pc :: tail := by
  obtain ⟨color, ty⟩ := pc
  cases color <;> cases ty <;> rfl

theorem expandRow_rowFENgo : ∀ (row : List Square) (e : Nat),
    e + row.length ≤ 8 →
    expandRowChars (rowFENgo row e) =
      some (List.replicate e none ++ row) := by
  intro row
  induction row with
  | nil =>
    intro e he
    simp only [List.length_nil, Nat.add_zero] at he
    show expandRowChars (if e > 0 then digitChars e else []) = _
    rcases Nat.eq_zero_or_pos e with rfl | hpos
    · rfl
    · rw [if_pos hpos,
        show digitChars e = digitChars e ++ [] from (List.append_nil _).symm,
        expandRow_digit e hpos he]
      rfl
  | cons sq rest ih =>
    intro e he
    simp only [List.length_cons] at he
    cases sq with
    | none =>
      show expandRowChars (rowFENgo rest (e + 1)) = _
      rw [ih (e + 1) (by omega), List.replicate_succ']
      simp [List.append_assoc]
    | some pc =>
      show expandRowChars
          ((if e > 0 then digitChars e else []) ++
            pieceChar pc :: rowFENgo rest 0) = _
      rcases Nat.eq_zero_or_pos e with rfl | hpos
      · rw [if_neg (by omega), List.nil_append, expandRow_pieceCons,
          ih 0 (by omega)]
        rfl
      · rw [if_pos hpos, expandRow_digit e hpos (by omega),
          expandRow_pieceCons, ih 0 (by omega)]
        rfl

theorem expandRowChars_some_chars : ∀ (l : List Char) (v : List Square),
    expandRowChars l = some v → ∀ ch ∈ l,
      ('1' ≤ ch ∧ ch ≤ '8') ∨ (pieceOfChar ch).isSome = true := by
  intro l
  induction l with
  | nil => exact fun v _ ch hch => absurd hch (List.not_mem_nil _)
  | cons c rest ih =>
    intro v hv ch hch
    rw [expandRowChars_cons] at hv
    rcases List.mem_cons.mp hch with rfl | hch
    · by_cases hd : '1' ≤ ch ∧ ch ≤ '8'
      · exact Or.inl hd
      · rw [if_neg hd] at hv
        cases hp : pieceOfChar ch with
        | none => rw [hp] at hv; exact absurd hv (by simp)
        | some piece => exact Or.inr (by simp [hp])
    · by_cases hd : '1' ≤ c ∧ c ≤ '8'
      · rw [if_pos hd] at hv
        cases he : expandRowChars rest with
        | none => rw [he] at hv; exact absurd hv (by simp)
        | some t => exact ih t he ch hch
      · rw [if_neg hd] at hv
        cases hp : pieceOfChar c with
        | none => rw [hp] at hv; exact absurd hv (by simp)
        | some piece =>
          rw [hp] at hv
          cases he : expandRowChars rest with
          | none => rw [he] at hv; exact absurd hv (by simp)
          | some t => exact ih t he ch hch

theorem rowFEN_expand (b : Board) (r : Nat) :
    expandRowChars (rowFEN b r) =
      some ((List.range 8).map fun c => getSq b (r : Int) (c : Int)) := by
  unfold rowFEN
  rw [expandRow_rowFENgo _ 0
    (by rw [List.length_map]; decide)]
  rfl

theorem rowFEN_chars (b : Board) (r : Nat) :
    ∀ ch ∈ rowFEN b r, ch ≠ ' ' ∧ ch ≠ '/' := by
  intro ch hch
  rcases expandRowChars_some_chars _ _ (rowFEN_expand b r) ch hch with hd | hp
  · constructor
    · intro he; rw [he] at hd; exact absurd hd.1 (by decide)
    · intro he; rw [he] at hd; exact absurd hd.1 (by decide)
  · constructor
    · intro he; rw [he] at hp; exact absurd hp (by decide)
    · intro he; rw [he] at hp; exact absurd hp (by decide)

/-! ### Field-level helpers for the round trip -/

theorem mem_joinSep (sep : Char) : ∀ (parts : List (List Char)) (ch : Char),
    ch ∈ joinSep sep parts → ch = sep ∨ ∃ p ∈ parts, ch ∈ p := by
  intro parts
  induction parts with
  | nil => exact fun ch h => absurd h (List.not_mem_nil _)
  | cons p rest ih =>
    intro ch h
    cases rest with
    | nil => exact Or.inr ⟨p, by simp, h⟩
    | cons q rest2 =>
      rw [show joinSep sep (p :: q :: rest2) =
          p ++ sep :: joinSep sep (q :: rest2) from rfl] at h
      rcases List.mem_append.mp h with h | h
      · exact Or.inr ⟨p, by simp, h⟩
      · rcases List.mem_cons.mp h with rfl | h
        · exact Or.inl rfl
        · rcases ih ch h with h | ⟨x, hx, hxch⟩
          · exact Or.inl h
          · exact Or.inr ⟨x, List.mem_cons_of_mem p hx, hxch⟩

theorem castleFieldChars_chars (cr : CastlingRights) :
    ∀ ch ∈ castleFieldChars cr, ch ≠ ' ' := by
  obtain ⟨a, b, c, d⟩ := cr
  cases a <;> cases b <;> cases c <;> cases d <;> decide

theorem castleFieldChars_contains (cr : CastlingRights) :
    (castleFieldChars cr).contains 'K' = cr.K ∧
      (castleFieldChars cr).contains 'Q' = cr.Q ∧
      (castleFieldChars cr).contains 'k' = cr.k ∧
      (castleFieldChars cr).contains 'q' = cr.q := by
  obtain ⟨a, b, c, d⟩ := cr
  cases a <;> cases b <;> cases c <;> cases d <;> decide

theorem digitChars_chars (n : Nat) :
    ∀ ch ∈ digitChars n, ch.isDigit = true := by
  unfold digitChars
  split
  · intro ch hch
    rw [List.mem_singleton] at hch
    rw [hch]
    decide
  · intro ch hch
    simp only [List.mem_map] at hch
    obtain ⟨d, hd, rfl⟩ := hch
    have hlt : d < 10 :=
      (digitsAux_spec n n (le_refl n)).2 d (List.mem_reverse.mp hd)
    exact (digitChar_is_digit d hlt).1

theorem isDigit_ne (ch : Char) (h : ch.isDigit = true) :
    ch ≠ ' ' ∧ ch ≠ '/' := by
  constructor
  · intro he; rw [he] at h; exact absurd h (by decide)
  · intro he; rw [he] at h; exact absurd h (by decide)

/-- Structural well-formedness of a board: 8 ranks of 8 files.  Every
board the engine itself builds has this shape. -/
def WFBoard (b : Board) : Prop :=
  b.length = 8 ∧ ∀ row ∈ b, row.length = 8

instance (b : Board) : Decidable (WFBoard b) :=
  inferInstanceAs (Decidable (_ = _ ∧ ∀ row ∈ b, row.length = 8))

/-- The en-passant field never collides with the `-` placeholder or the
field separator; every field the engine itself stores (always `rcToSq`)
satisfies this. -/
def epOK : Option String → Prop
  | none => True
  | some ep => ep.toList ≠ ['-'] ∧ ' ' ∉ ep.toList

instance : (ep : Option String) → Decidable (epOK ep)
  | none => isTrue trivial
  | some e => inferInstanceAs (Decidable (e.toList ≠ ['-'] ∧ ' ' ∉ e.toList))

theorem getD_char_cases (l : List Char) (n : Nat) (d : Char) :
    l.getD n d ∈ l ∨ l.getD n d = d := by
  rcases Nat.lt_or_ge n l.length with h | h
  · exact Or.inl (getD_mem_of_lt l n d h)
  · right
    rw [List.getD_eq_getElem?_getD, List.getElem?_eq_none h]
    rfl

theorem rcToSq_ok (r c : Int) :
    (rcToSq r c).toList ≠ ['-'] ∧ ' ' ∉ (rcToSq r c).toList := by
  have hF : FILES.getD c.toNat '?' ≠ '-' ∧ FILES.getD c.toNat '?' ≠ ' ' := by
    rcases getD_char_cases FILES c.toNat '?' with h | h
    · exact (show ∀ x ∈ FILES, x ≠ '-' ∧ x ≠ ' ' by decide) _ h
    · rw [h]; exact ⟨by decide, by decide⟩
  have hR : RANKS.getD r.toNat '?' ≠ '-' ∧ RANKS.getD r.toNat '?' ≠ ' ' := by
    rcases getD_char_cases RANKS r.toNat '?' with h | h
    · exact (show ∀ x ∈ RANKS, x ≠ '-' ∧ x ≠ ' ' by decide) _ h
    · rw [h]; exact ⟨by decide, by decide⟩
  have h1 : ∀ a b : Char,
      (String.singleton a ++ String.singleton b).toList = [a, b] :=
    fun a b => rfl
  have h2 : ∀ a : Char, (String.singleton a ++ "").toList = [a] :=
    fun a => rfl
  have h3 : ∀ b : Char, ("" ++ String.singleton b).toList = [b] :=
    fun b => rfl
  unfold rcToSq
  constructor
  · split <;> split
    · rw [h1]; simp
    · rw [h2]; simpa using hF.1
    · rw [h3]; simpa using hR.1
    · intro hcon
      exact absurd (congrArg List.length hcon) (by decide)
  · split <;> split
    · rw [h1]
      intro h
      rcases List.mem_cons.mp h with h | h
      · exact hF.2 h.symm
      · rw [List.mem_singleton] at h; exact hR.2 h.symm
    · rw [h2]
      intro h
      rw [List.mem_singleton] at h
      exact hF.2 h.symm
    · rw [h3]
      intro h
      rw [List.mem_singleton] at h
      exact hR.2 h.symm
    · intro h
      exact absurd h (List.not_mem_nil _)

theorem mapM_some {α β : Type} (f : α → Option β) (g : α → β) :
    ∀ (l : List α), (∀ a ∈ l, f a = some (g a)) →
      l.mapM f = some (l.map g) := by
  intro l
  induction l with
  | nil => intro _; rfl
  | cons a t ih =>
    intro h
    rw [List.mapM_cons, h a (List.mem_cons_self a t),
      ih (fun x hx => h x (List.mem_cons_of_mem a hx))]
    rfl

theorem list_len8_eq {α : Type} (l : List α) (d : α) (h : l.length = 8) :
    l = [l.getD 0 d, l.getD 1 d, l.getD 2 d, l.getD 3 d,
         l.getD 4 d, l.getD 5 d, l.getD 6 d, l.getD 7 d] := by
  rcases l with _ | ⟨a0, _ | ⟨a1, _ | ⟨a2, _ | ⟨a3, _ | ⟨a4, _ | ⟨a5, _ |
    ⟨a6, _ | ⟨a7, _ | ⟨a8, t⟩⟩⟩⟩⟩⟩⟩⟩⟩
  all_goals simp only [List.length_cons, List.length_nil] at h
  all_goals first
    | rfl
    | omega

theorem getSq_row (b : Board) (hrow : ∀ row ∈ b, row.length = 8)
    (r : Nat) (hr : r < b.length) :
    ((List.range 8).map fun c => getSq b (r : Int) (c : Int)) =
      b.getD r [] := by
  have hlen : (b.getD r []).length = 8 := hrow _ (getD_mem_of_lt b r [] hr)
  have hget : ∀ i : Nat, getSq b (r : Int) (i : Int) =
      (b.getD r []).getD i none := by
    intro i
    unfold getSq
    rw [if_pos ⟨Int.ofNat_nonneg r, Int.ofNat_nonneg i⟩, Int.toNat_natCast,
      Int.toNat_natCast]
  have hlhs : ((List.range 8).map fun c => getSq b (r : Int) (c : Int)) =
      [getSq b (r : Int) 0, getSq b (r : Int) 1, getSq b (r : Int) 2,
       getSq b (r : Int) 3, getSq b (r : Int) 4, getSq b (r : Int) 5,
       getSq b (r : Int) 6, getSq b (r : Int) 7] := rfl
  rw [hlhs, list_len8_eq (b.getD r []) none hlen]
  simp only [List.cons.injEq, and_true]
  exact ⟨hget 0, hget 1, hget 2, hget 3, hget 4, hget 5, hget 6, hget 7⟩

theorem board_rows (b : Board) (hb : b.length = 8) :
    ((List.range 8).map fun r => b.getD r []) = b := by
  apply List.ext_getElem
  · rw [List.length_map, List.length_range, hb]
  · intro i h1 h2
    rw [List.getElem_map, List.getElem_range, List.getD_eq_getElem?_getD,
      List.getElem?_eq_getElem h2, Option.getD_some]

/-! ### Shape preservation along play -/

theorem WFBoard_setSq (b : Board) (r c : Int) (v : Square) (h : WFBoard b) :
    WFBoard (setSq b r c v) :=
  ⟨by rw [setSq_length]; exact h.1, setSq_rows b r c v h.2⟩

theorem applyRawMove_WFBoard (s : GameState) (m : RawMove)
    (h : WFBoard s.board) : WFBoard (applyRawMove s m).board := by
  unfold applyRawMove
  split
  · exact h
  · dsimp only
    repeat' split
    all_goals repeat (first | exact h | apply WFBoard_setSq)

theorem applyRawMove_epOK (s : GameState) (m : RawMove)
    (h : epOK s.enPassant) : epOK (applyRawMove s m).enPassant := by
  unfold applyRawMove
  split
  · exact h
  · dsimp only
    split
    · exact rcToSq_ok _ _
    · trivial

/-- A state reachable by repeated legal transitions from the standard
starting position: the decode of `STARTING_FEN`, closed under applying a
move the legality filter emits. -/
inductive Reachable : GameState → Prop
  | start (s : GameState) : parseFEN STARTING_FEN = some s → Reachable s
  | step (s : GameState) (m : RawMove) (s' : GameState) :
      Reachable s → m ∈ legalRawMoves s → s' = applyRawMove s m →
      Reachable s'

/-- The decoded starting state, as a closed value. -/
def startState : GameState :=
  (parseFEN STARTING_FEN).getD bareKings

theorem reachable_wf (s : GameState) (h : Reachable s) :
    WFBoard s.board ∧ epOK s.enPassant := by
  induction h with
  | start s hs =>
    have h2 : parseFEN STARTING_FEN = some startState := by decide
    have : s = startState := Option.some.inj (hs.symm.trans h2)
    rw [this]
    exact ⟨by decide, trivial⟩
  | step s m s' hr hm hs' ih =>
    rw [hs']
    exact ⟨applyRawMove_WFBoard s m ih.1, applyRawMove_epOK s m ih.2⟩

/-! ### The decoder applied to an encoder output -/

/-- The en-passant field text of `toFEN`. -/
def epField : Option String → List Char
  | some e => e.toList
  | none => ['-']

theorem option_bind_some {α β : Type} (a : α) (f : α → Option β) :
    ((some a : Option α) >>= f) = f a := rfl

/-- `parseFEN` on an input whose six fields are known. -/
theorem parseFEN_fields (f0 f1 f2 f3 f4 f5 : List Char) (fen : String)
    (hsp : splitSep ' ' fen.toList = [f0, f1, f2, f3, f4, f5]) :
    parseFEN fen =
      (let rows := splitSep '/' f0
       if rows.length < 8 then none
       else do
         let board ← (rows.take 8).mapM expandRowChars
         let turn ←
           match f1 with
           | ['w'] => some PieceColor.w
           | ['b'] => some PieceColor.b
           | _ => none
         let halfmove ← parseNatChars f4
         let fullmove ← parseNatChars f5
         some
           { board := board
             turn := turn
             castling := ⟨f2.contains 'K', f2.contains 'Q',
                          f2.contains 'k', f2.contains 'q'⟩
             enPassant := if f3 = ['-'] then none else some (String.mk f3)
             halfmoveClock := halfmove
             fullmoveNumber := fullmove }) := by
  unfold parseFEN
  rw [hsp]
  rfl

theorem turn_roundtrip (tn : PieceColor) :
    (match [if tn = PieceColor.w then 'w' else 'b'] with
     | ['w'] => some PieceColor.w
     | ['b'] => some PieceColor.b
     | _ => none) = some tn := by
  cases tn <;> rfl

theorem ep_roundtrip (ep : Option String) (hep : epOK ep) :
    (if epField ep = ['-'] then none else some (String.mk (epField ep)))
      = ep := by
  cases ep with
  | none => rfl
  | some e =>
    show (if e.toList = ['-'] then none else some (String.mk e.toList))
      = some e
    rw [if_neg hep.1]
    obtain ⟨data⟩ := e
    rfl

theorem parseFEN_toFEN (s : GameState) (hb : WFBoard s.board)
    (hep : epOK s.enPassant) : parseFEN (toFEN s) = some s := by
  obtain ⟨bd, tn, cr, ep, hm, fm⟩ := s
  obtain ⟨hlen, hrows⟩ := hb
  have hsplit : splitSep ' ' (toFEN ⟨bd, tn, cr, ep, hm, fm⟩).toList =
      [joinSep '/' ((List.range 8).map fun r => rowFEN bd r),
       [if tn = PieceColor.w then 'w' else 'b'],
       castleFieldChars cr,
       epField ep,
       digitChars hm,
       digitChars fm] := by
    have ht : (toFEN ⟨bd, tn, cr, ep, hm, fm⟩).toList =
        joinSep ' '
          [joinSep '/' ((List.range 8).map fun r => rowFEN bd r),
           [if tn = PieceColor.w then 'w' else 'b'],
           castleFieldChars cr,
           epField ep,
           digitChars hm,
           digitChars fm] := rfl
    rw [ht]
    apply splitSep_joinSep
    · simp
    · intro p hp hsp
      simp only [List.mem_cons, List.not_mem_nil, or_false] at hp
      rcases hp with rfl | rfl | rfl | rfl | rfl | rfl
      · rcases mem_joinSep '/' _ ' ' hsp with h | ⟨q, hq, hq2⟩
        · exact absurd h (by decide)
        · obtain ⟨r, hr, rfl⟩ := List.mem_map.mp hq
          exact (rowFEN_chars bd r ' ' hq2).1 rfl
      · rw [List.mem_singleton] at hsp
        split at hsp <;> exact absurd hsp (by decide)
      · exact castleFieldChars_chars cr ' ' hsp rfl
      · cases ep with
        | none => exact absurd hsp (by decide)
        | some e => exact hep.2 hsp
      · exact absurd rfl (isDigit_ne ' ' (digitChars_chars hm ' ' hsp)).1
      · exact absurd rfl (isDigit_ne ' ' (digitChars_chars fm ' ' hsp)).1
  have hrows2 : splitSep '/'
      (joinSep '/' ((List.range 8).map fun r => rowFEN bd r)) =
      (List.range 8).map fun r => rowFEN bd r := by
    apply splitSep_joinSep
    · simp
    · intro p hp hsp
      obtain ⟨r, hr, rfl⟩ := List.mem_map.mp hp
      exact (rowFEN_chars bd r '/' hsp).2 rfl
  have hlen8 : ((List.range 8).map fun r => rowFEN bd r).length = 8 := by
    rw [List.length_map, List.length_range]
  have hmapM : ∀ a ∈ (List.range 8).map fun r => rowFEN bd r,
      expandRowChars a = some ((expandRowChars a).getD []) := by
    intro a ha
    obtain ⟨r, hr, rfl⟩ := List.mem_map.mp ha
    rw [rowFEN_expand]
    rfl
  have hcomp : ∀ r ∈ List.range 8,
      ((fun a => (expandRowChars a).getD []) ∘ fun r => rowFEN bd r) r =
        bd.getD r [] := by
    intro r hr
    show (expandRowChars (rowFEN bd r)).getD [] = bd.getD r []
    rw [rowFEN_expand, Option.getD_some,
      getSq_row bd hrows r (by rw [hlen]; exact List.mem_range.mp hr)]
  have hboard : ((List.range 8).map fun r => rowFEN bd r).mapM expandRowChars
      = some bd := by
    rw [mapM_some expandRowChars (fun a => (expandRowChars a).getD []) _ hmapM]
    have hmm2 : (((List.range 8).map fun r => rowFEN bd r).map
        fun a => (expandRowChars a).getD []) = bd := by
      rw [List.map_map, List.map_congr_left hcomp]
      exact board_rows bd hlen
    rw [hmm2]
  obtain ⟨hK, hQ, hk, hq⟩ := castleFieldChars_contains cr
  rw [parseFEN_fields _ _ _ _ _ _ _ hsplit]
  rw [hrows2]
  dsimp only
  rw [if_neg (by rw [hlen8]; decide)]
  rw [List.take_of_length_le (le_of_eq hlen8)]
  rw [hboard]
  rw [option_bind_some]
  cases tn
  · rw [show (if PieceColor.w = PieceColor.w then 'w' else 'b') = 'w' from rfl]
    rw [option_bind_some, parseNatChars_digitChars, option_bind_some,
      parseNatChars_digitChars, option_bind_some, hK, hQ, hk, hq,
      ep_roundtrip ep hep]
    rfl
  · rw [show (if PieceColor.b = PieceColor.w then 'w' else 'b') = 'b' from rfl]
    rw [option_bind_some, parseNatChars_digitChars, option_bind_some,
      parseNatChars_digitChars, option_bind_some, hK, hQ, hk, hq,
      ep_roundtrip ep hep]
    rfl

/-- C4.  Round-trip law of the codec: for every state reachable by
repeated legal transitions from the standard starting position,
`parseFEN (toFEN s) = some s`; and for every encoding this codec itself
produces from such a state, decoding and re-encoding returns the same
text. -/
theorem fen_round_trip (s : GameState) (h : Reachable s) :
    parseFEN (toFEN s) = some s ∧
      ∀ t : String, t = toFEN s → (parseFEN t).map toFEN = some t := by
  obtain ⟨hb, hep⟩ := reachable_wf s h
  have h1 := parseFEN_toFEN s hb hep
  refine ⟨h1, ?_⟩
  intro t ht
  rw [ht, h1]
  rfl

/-- Witness for C4: the starting state is reachable, and the round trip
holds on it. -/
theorem fen_round_trip_witness :
    parseFEN (toFEN startState) = some startState ∧
      ∀ t : String, t = toFEN startState → (parseFEN t).map toFEN = some t :=
  fen_round_trip startState (Reachable.start startState (by decide))

/-! ## Claim C10 — uci strings of the generated moves -/

/-- In-board bounds for all four coordinates of a raw move. -/
def boundsOK (m : RawMove) : Prop :=
  0 ≤ m.fromR ∧ m.fromR < 8 ∧ 0 ≤ m.fromC ∧ m.fromC < 8 ∧
    0 ≤ m.toR ∧ m.toR < 8 ∧ 0 ≤ m.toC ∧ m.toC < 8

/-- Target bounds alone. -/
def targetOK (m : RawMove) : Prop :=
  0 ≤ m.toR ∧ m.toR < 8 ∧ 0 ≤ m.toC ∧ m.toC < 8

instance (m : RawMove) : Decidable (targetOK m) :=
  inferInstanceAs (Decidable (_ ≤ _ ∧ _ < _ ∧ _ ≤ _ ∧ _ < _))

instance (m : RawMove) : Decidable (boundsOK m) :=
  inferInstanceAs (Decidable (_ ≤ _ ∧ _ < _ ∧ _ ≤ _ ∧ _ < _ ∧
    _ ≤ _ ∧ _ < _ ∧ _ ≤ _ ∧ _ < _))

/-- The promotion field is empty or one of the four generator kinds. -/
def promoOK (m : RawMove) : Prop :=
  m.promotion = none ∨ ∃ pk, pk ∈ promoKinds ∧ m.promotion = some pk

theorem pawnMoves_target (board : Board) (turn : PieceColor)
    (ep : Option String) (r c : Int) (m : RawMove)
    (hm : m ∈ pawnMoves board turn ep r c) : targetOK m ∧ promoOK m := by
  unfold pawnMoves at hm
  dsimp only at hm
  rcases List.mem_append.mp hm with h | h
  · clear hm
    repeat' split at h
    all_goals try exact absurd h (List.not_mem_nil _)
    all_goals rcases List.mem_append.mp h with h2 | h2
    all_goals clear h
    all_goals
      first
        | exact absurd h2 (List.not_mem_nil _)
        | (rcases List.mem_singleton.mp h2 with rfl
           refine ⟨?_, Or.inl rfl⟩
           simp [inBounds, targetOK] at *
           omega)
        | (obtain ⟨pk, hpk, rfl⟩ := List.mem_map.mp h2
           refine ⟨?_, Or.inr ⟨pk, hpk, rfl⟩⟩
           simp [inBounds, targetOK] at *
           omega)
  · clear hm
    obtain ⟨dc, hdc, h⟩ := List.mem_flatMap.mp h
    try dsimp only at h
    repeat' split at h
    all_goals
      first
        | exact absurd h (List.not_mem_nil _)
        | (rcases List.mem_singleton.mp h with rfl
           refine ⟨?_, Or.inl rfl⟩
           simp [inBounds, targetOK] at *
           omega)
        | (obtain ⟨pk, hpk, rfl⟩ := List.mem_map.mp h
           refine ⟨?_, Or.inr ⟨pk, hpk, rfl⟩⟩
           simp [inBounds, targetOK] at *
           omega)

theorem knightBranch_target (board : Board) (turn : PieceColor)
    (r c : Int) (m : RawMove) (hm : m ∈ knightBranch board turn r c) :
    targetOK m ∧ promoOK m := by
  unfold knightBranch at hm
  obtain ⟨d, hd, h⟩ := List.mem_flatMap.mp hm
  try dsimp only at h
  repeat' split at h
  all_goals
    first
      | exact absurd h (List.not_mem_nil _)
      | (rcases List.mem_singleton.mp h with rfl
         refine ⟨?_, Or.inl rfl⟩
         simp [inBounds, targetOK] at *
         omega)

theorem slideRay_target (board : Board) (turn : PieceColor) (r c : Int) :
    ∀ (fuel : Nat) (nr nc dr dc : Int) (m : RawMove),
      m ∈ slideRay board turn r c fuel nr nc dr dc →
      targetOK m ∧ promoOK m := by
  intro fuel
  induction fuel with
  | zero =>
    intro nr nc dr dc m h
    exact absurd h (List.not_mem_nil _)
  | succ f ih =>
    intro nr nc dr dc m h
    unfold slideRay at h
    repeat' split at h
    all_goals
      first
        | exact absurd h (List.not_mem_nil _)
        | (rcases List.mem_singleton.mp h with rfl
           refine ⟨?_, Or.inl rfl⟩
           simp [inBounds, targetOK] at *
           omega)
        | (rcases List.mem_cons.mp h with rfl | h2
           · refine ⟨?_, Or.inl rfl⟩
             simp [inBounds, targetOK] at *
             omega
           · exact ih _ _ _ _ _ h2)

theorem slideBranch_target (board : Board) (turn : PieceColor)
    (t : PieceType) (r c : Int) (m : RawMove)
    (hm : m ∈ slideBranch board turn t r c) : targetOK m ∧ promoOK m := by
  unfold slideBranch at hm
  obtain ⟨d, -, h⟩ := List.mem_flatMap.mp hm
  exact slideRay_target board turn r c 16 _ _ _ _ m h

theorem kingSteps_target (board : Board) (turn : PieceColor)
    (r c : Int) (m : RawMove) (hm : m ∈ kingSteps board turn r c) :
    targetOK m ∧ promoOK m := by
  unfold kingSteps at hm
  obtain ⟨dr, -, h⟩ := List.mem_flatMap.mp hm
  obtain ⟨dc, -, h⟩ := List.mem_flatMap.mp h
  try dsimp only at h
  repeat' split at h
  all_goals clear hm
  all_goals
    first
      | exact absurd h (List.not_mem_nil _)
      | (rcases List.mem_singleton.mp h with rfl
         refine ⟨?_, Or.inl rfl⟩
         simp [inBounds, targetOK] at *
         omega)

theorem kingCastles_target (board : Board) (turn : PieceColor)
    (cr : CastlingRights) (r c : Int) (m : RawMove)
    (hm : m ∈ kingCastles board turn cr r c) : targetOK m ∧ promoOK m := by
  unfold kingCastles at hm
  dsimp only at hm
  split at hm <;>
    rcases List.mem_append.mp hm with h | h <;>
    (repeat' split at h) <;>
    first
      | (rcases List.mem_singleton.mp h with rfl
         refine ⟨?_, Or.inl rfl⟩
         simp [targetOK])
      | simp at h

theorem movesFrom_target (s : GameState) (r c : Int) (m : RawMove)
    (hm : m ∈ movesFrom s r c) : targetOK m ∧ promoOK m := by
  unfold movesFrom at hm
  split at hm
  · simp at hm
  · split at hm
    · simp at hm
    · split at hm
      · exact pawnMoves_target _ _ _ _ _ _ hm
      · exact knightBranch_target _ _ _ _ _ hm
      · exact slideBranch_target _ _ _ _ _ _ hm
      · exact slideBranch_target _ _ _ _ _ _ hm
      · exact slideBranch_target _ _ _ _ _ _ hm
      · rcases List.mem_append.mp hm with h | h
        · exact kingSteps_target _ _ _ _ _ h
        · exact kingCastles_target _ _ _ _ _ _ h

theorem mem_pseudo_bounds (s : GameState) (m : RawMove)
    (hm : m ∈ generatePseudoLegalMoves s) : boundsOK m ∧ promoOK m := by
  obtain ⟨r, hr, c, hc, hmem⟩ := (mem_generatePseudoLegalMoves_iff s m).mp hm
  obtain ⟨h1, h2⟩ := movesFrom_origin _ _ _ _ hmem
  obtain ⟨ht, hp⟩ := movesFrom_target _ _ _ _ hmem
  rw [List.mem_range] at hr hc
  refine ⟨⟨?_, ?_, ?_, ?_, ht.1, ht.2.1, ht.2.2.1, ht.2.2.2⟩, hp⟩
  all_goals omega
/-- The uci text of a raw move, as assembled in the record (`from + to +
promotion letter`). -/
def uciOf (m : RawMove) : String :=
  rcToSq m.fromR m.fromC ++ rcToSq m.toR m.toC ++
    (match m.promotion with
     | some pk => String.singleton (typeChar pk)
     | none => "")

theorem legalMoveRecord_uci (s : GameState) (mv : RawMove) :
    (legalMoveRecord s mv).uci = uciOf mv := rfl

theorem toList_append (s t : String) :
    (s ++ t).toList = s.toList ++ t.toList := by
  obtain ⟨a⟩ := s
  obtain ⟨b⟩ := t
  rfl

theorem rcToSq_bounded (r c : Int)
    (h : 0 ≤ r ∧ r < 8 ∧ 0 ≤ c ∧ c < 8) :
    (rcToSq r c).toList =
      [FILES.getD c.toNat '?', RANKS.getD r.toNat '?'] := by
  unfold rcToSq
  rw [if_pos ⟨h.2.2.1, h.2.2.2⟩, if_pos ⟨h.1, h.2.1⟩]
  rfl

theorem FILES_getD_inj : ∀ c1 ∈ List.range 8, ∀ c2 ∈ List.range 8,
    FILES.getD c1 '?' = FILES.getD c2 '?' → c1 = c2 := by decide

theorem RANKS_getD_inj : ∀ r1 ∈ List.range 8, ∀ r2 ∈ List.range 8,
    RANKS.getD r1 '?' = RANKS.getD r2 '?' → r1 = r2 := by decide

theorem typeChar_promo_inj : ∀ a ∈ promoKinds, ∀ b ∈ promoKinds,
    typeChar a = typeChar b → a = b := by decide

theorem typeChar_promo_lower : ∀ a ∈ promoKinds,
    (typeChar a).isLower = true := by decide

theorem uciOf_toList (m : RawMove) (hb : boundsOK m) :
    (uciOf m).toList =
      [FILES.getD m.fromC.toNat '?', RANKS.getD m.fromR.toNat '?',
       FILES.getD m.toC.toNat '?', RANKS.getD m.toR.toNat '?'] ++
        (match m.promotion with
         | some pk => [typeChar pk]
         | none => []) := by
  obtain ⟨h1, h2, h3, h4, h5, h6, h7, h8⟩ := hb
  unfold uciOf
  rw [toList_append, toList_append,
    rcToSq_bounded _ _ ⟨h1, h2, h3, h4⟩, rcToSq_bounded _ _ ⟨h5, h6, h7, h8⟩]
  cases hp : m.promotion <;> rfl

theorem uciOf_inj (m m' : RawMove) (hb : boundsOK m) (hb' : boundsOK m')
    (hp : promoOK m) (hp' : promoOK m') (h : uciOf m = uciOf m') :
    m = m' := by
  have hl := congrArg String.toList h
  rw [uciOf_toList m hb, uciOf_toList m' hb'] at hl
  obtain ⟨g1, g2, g3, g4, g5, g6, g7, g8⟩ := hb
  obtain ⟨k1, k2, k3, k4, k5, k6, k7, k8⟩ := hb'
  simp only [List.cons_append, List.nil_append, List.cons.injEq] at hl
  obtain ⟨e1, e2, e3, e4, e5⟩ := hl
  have hfc : m.fromC = m'.fromC := by
    have := FILES_getD_inj _ (List.mem_range.mpr (by omega)) _
      (List.mem_range.mpr (by omega)) e1
    omega
  have hfr : m.fromR = m'.fromR := by
    have := RANKS_getD_inj _ (List.mem_range.mpr (by omega)) _
      (List.mem_range.mpr (by omega)) e2
    omega
  have htc : m.toC = m'.toC := by
    have := FILES_getD_inj _ (List.mem_range.mpr (by omega)) _
      (List.mem_range.mpr (by omega)) e3
    omega
  have htr : m.toR = m'.toR := by
    have := RANKS_getD_inj _ (List.mem_range.mpr (by omega)) _
      (List.mem_range.mpr (by omega)) e4
    omega
  have hpr : m.promotion = m'.promotion := by
    rcases hp with h0 | ⟨pk, hpk, h0⟩ <;> rcases hp' with h0' | ⟨pk', hpk', h0'⟩
    · rw [h0, h0']
    · rw [h0, h0'] at e5
      simp at e5
    · rw [h0, h0'] at e5
      simp at e5
    · rw [h0, h0']
      rw [h0, h0'] at e5
      have := typeChar_promo_inj pk hpk pk' hpk' (by simpa using e5)
      rw [this]
  cases m
  cases m'
  rw [RawMove.mk.injEq]
  exact ⟨hfr, hfc, htr, htc, hpr⟩

theorem uciOf_length_none (m : RawMove) (hb : boundsOK m)
    (h0 : m.promotion = none) : (uciOf m).length = 4 := by
  have hlen : (uciOf m).length = (uciOf m).toList.length := rfl
  rw [hlen, uciOf_toList m hb, h0]
  rfl

theorem uciOf_length_some (m : RawMove) (hb : boundsOK m) (pk : PieceType)
    (hpk : pk ∈ promoKinds) (h0 : m.promotion = some pk) :
    (uciOf m).length = 5 ∧ (typeChar pk).isLower = true := by
  constructor
  · have hlen : (uciOf m).length = (uciOf m).toList.length := rfl
    rw [hlen, uciOf_toList m hb, h0]
    rfl
  · exact typeChar_promo_lower pk hpk

/-- C10 counterexample state: white king on f2 with the kingside flag
still set and the rook on h1 (`k7/8/8/8/8/8/5K2/7R w K - 0 1`). -/
def dupUciState : GameState :=
  (parseFEN "k7/8/8/8/8/8/5K2/7R w K - 0 1").getD bareKings

/-- C10 is refuted as stated: in `dupUciState` the king step f2-g1 and the
kingside-castle emission are the same displacement, so `getLegalMoves`
returns two records with the equal uci string `f2g1` and the uci list is
not pairwise distinct. -/
theorem getLegalMoves_uci_duplicate :
    ¬ (((getLegalMovesCore dupUciState).map fun m => m.uci).Pairwise
        fun a b => a ≠ b) := by
  decide

/-- C10 (amended).  The uci string of a returned move determines the move
record uniquely (entries with equal uci are the same record, though the
list may contain that record twice, as in the counterexample); every
promotion move has a five-character uci ending in a lowercase promotion
letter, every non-promotion move has a four-character uci, and a
four-character action string never applies a promotion move. -/
theorem getLegalMoves_uci_faithful (s : GameState) :
    (∀ m ∈ getLegalMovesCore s, ∀ m' ∈ getLegalMovesCore s,
        m.uci = m'.uci → m = m') ∧
      (∀ m ∈ getLegalMovesCore s,
        (∀ pk, m.promotion = some pk →
          m.uci.length = 5 ∧ (typeChar pk).isLower = true) ∧
        (m.promotion = none → m.uci.length = 4)) ∧
      (∀ action : String, action.length = 4 →
        ∀ p ∈ makeMove s action, p.2.promotion = none) := by
  refine ⟨?_, ?_, ?_⟩
  · intro m hm m' hm' h
    obtain ⟨mv, hmv, rfl⟩ := List.mem_map.mp hm
    obtain ⟨mv', hmv', rfl⟩ := List.mem_map.mp hm'
    obtain ⟨hb, hp⟩ := mem_pseudo_bounds s mv (List.mem_filter.mp hmv).1
    obtain ⟨hb', hp'⟩ := mem_pseudo_bounds s mv' (List.mem_filter.mp hmv').1
    have : mv = mv' := uciOf_inj mv mv' hb hb' hp hp' h
    rw [this]
  · intro m hm
    obtain ⟨mv, hmv, rfl⟩ := List.mem_map.mp hm
    obtain ⟨hb, hp⟩ := mem_pseudo_bounds s mv (List.mem_filter.mp hmv).1
    constructor
    · intro pk hpk
      have hpk' : mv.promotion = some pk := hpk
      rcases hp with h0 | ⟨pk2, hpk2, h0⟩
      · rw [h0] at hpk'
        exact absurd hpk' (by simp)
      · have hpe : pk2 = pk := by
          rw [h0] at hpk'
          exact Option.some.inj hpk'
        subst hpe
        exact uciOf_length_some mv hb pk2 hpk2 h0
    · intro h0
      exact uciOf_length_none mv hb h0
  · intro action hlen p hp
    unfold makeMove at hp
    split at hp
    · exact absurd hp (by simp)
    · rename_i move hfind
      have hmemr : move ∈ getLegalMovesCore s :=
        List.mem_of_find?_eq_some hfind
      have huci : move.uci = action := by
        simpa using List.find?_some hfind
      obtain ⟨mv, hmv, hrec⟩ := List.mem_map.mp hmemr
      obtain ⟨hb, hpo⟩ := mem_pseudo_bounds s mv (List.mem_filter.mp hmv).1
      rw [Option.mem_def] at hp
      have hpair := Option.some.inj hp
      have hp2 : p.2 = move := by rw [← hpair]
      rw [hp2, ← hrec]
      rcases hpo with h0 | ⟨pk, hpk, h0⟩
      · exact h0
      · exfalso
        have h5 := (uciOf_length_some mv hb pk hpk h0).1
        have : move.uci.length = 5 := by rw [← hrec]; exact h5
        rw [huci, hlen] at this
        exact absurd this (by decide)

/-- Witness for C10's amended statement: at the counterexample state the
length clause applies to the plain king move f2-g1. -/
theorem getLegalMoves_uci_faithful_witness :
    (legalMoveRecord dupUciState ⟨6, 5, 7, 6, none⟩).uci.length = 4 :=
  ((getLegalMoves_uci_faithful dupUciState).2.1
    (legalMoveRecord dupUciState ⟨6, 5, 7, 6, none⟩) (by decide)).2 rfl

end Chess
